import Mathlib

/-!
Verification development for the barsPlus chart extension
(source: src/src/ldw-barsPlus.js and src/src/barLabelText.js).

The shallow embedding below translates the data-shaping pipeline
(`initData`, its 2-dimensional path, the topological sort used for the
canonical series order, the numeric-domain computation of `initChart`,
and the label-text computation of `barText`) into executable Lean
definitions.  JS numbers are modelled by `ℚ`; a measure cell whose
`qNum` is not a finite number (`Number.isFinite` fails) is modelled by
`Option ℚ` with `none` for the non-finite case.
-/

namespace LdwBars

/-! ## Topological sort (ldw-barsPlus.js lines 1909-1943)

The JS `toposort(nodes, edges)` keeps
  * `visited`, an object keyed by the *index* `i` of a node
    (`nodes.indexOf(child)`, which is `-1` when the child is absent,
    hence the key type `ℤ`), modelled as a `Finset ℤ`;
  * `sorted`, an array filled right to left by `sorted[--cursor] = node`;
    we record the completion order in a list `comp` instead, so the final
    array contents are `comp.reverse` (exact whenever the number of
    completions equals `nodes.length`, which holds whenever every edge
    target occurs in `nodes`; see `topLoop_marks_all` below).
Recursion is by fuel; `toposort` supplies `nodes.length + 2` which is
proved sufficient whenever every edge target occurs in `nodes`
(`visitF_fuel_sufficient`).
-/

/-- State of the JS `toposort`: the `visited` object (keyed by node index,
`-1` for an absent node) and the completion order of `sorted[--cursor]`. -/
structure TState where
  marked : Finset ℤ
  comp : List String
deriving DecidableEq

/-- `nodes.indexOf a` in JS: the first index, or `-1` when absent. -/
def jsIndexOf (nodes : List String) (a : String) : ℤ :=
  if a ∈ nodes then (nodes.indexOf a : ℤ) else -1

mutual
/-- The JS `visit(node, i, predecessors)` of `toposort`.  Throwing
`Error('Cyclic dependency ...')` is modelled by `Except.error node`;
`none` means the fuel ran out (proved unreachable for the fuel used by
`toposort`). -/
def visitF (nodes : List String) (edges : List (String × String)) :
    ℕ → String → ℤ → List String → TState → Option (Except String TState)
  | 0, _, _, _, _ => none
  | fuel+1, node, i, preds, st =>
    if node ∈ preds then some (.error node)
    else if i ∈ st.marked then some (.ok st)
    else
      -- JS iterates `outgoing` from the last element to the first
      let outgoing := (edges.filter (fun e => e.1 = node)).reverse
      match visitListF nodes edges fuel outgoing (preds ++ [node])
          ⟨insert i st.marked, st.comp⟩ with
      | none => none
      | some (.error e) => some (.error e)
      | some (.ok st2) => some (.ok ⟨st2.marked, st2.comp ++ [node]⟩)
termination_by fuel _ _ _ _ => (fuel, 0)

/-- Sequential processing of the outgoing-edge list inside `visit`. -/
def visitListF (nodes : List String) (edges : List (String × String)) :
    ℕ → List (String × String) → List String → TState → Option (Except String TState)
  | _, [], _, st => some (.ok st)
  | fuel, e :: rest, preds, st =>
    match visitF nodes edges fuel e.2 (jsIndexOf nodes e.2) preds st with
    | none => none
    | some (.error er) => some (.error er)
    | some (.ok st1) => visitListF nodes edges fuel rest preds st1
termination_by fuel l _ _ => (fuel, l.length + 1)
end

/-- The top-level `while (i--) if (!visited[i]) visit(nodes[i], i, [])`
loop, iterating `i = nodes.length - 1, ..., 0`. -/
def topLoop (nodes : List String) (edges : List (String × String)) :
    List ℕ → TState → Option (Except String TState)
  | [], st => some (.ok st)
  | i :: rest, st =>
    if (i : ℤ) ∈ st.marked then topLoop nodes edges rest st
    else
      match visitF nodes edges (nodes.length + 2) (nodes.getD i "") (i : ℤ) [] st with
      | none => none
      | some (.error e) => some (.error e)
      | some (.ok st1) => topLoop nodes edges rest st1

/-- `toposort(nodes, edges)` (lines 1909-1943).  `Except.error` models the
thrown `Cyclic dependency` error (the payload is the offending node).
Fuel exhaustion cannot occur when every edge target occurs in `nodes`
(lemma `toposort_no_fuel_out`); it is mapped to an error as a default. -/
def toposort (nodes : List String) (edges : List (String × String)) :
    Except String (List String) :=
  match topLoop nodes edges (List.range nodes.length).reverse ⟨∅, []⟩ with
  | none => .error "fuel"
  | some (.error e) => .error e
  | some (.ok st) => .ok st.comp.reverse

/-! ## Data model (initData, ldw-barsPlus.js lines 146-366)

A raw cell `{qElemNumber, qNum, qText}`.  `qNum : Option ℚ` models a JS
number that may fail `Number.isFinite` (`none` = NaN/±Infinity/absent);
the 2-dim path replaces such values by `0`
(`num = Number.isFinite(num) ? num : 0`, line 302). -/
structure Cell where
  qElemNumber : ℤ
  qNum : Option ℚ
  qText : String
deriving DecidableEq

/-- A data point of `g.flatData` / `group.values`.  `qElemNumber` is a
scalar in the 1-dim and synthesized-dimension paths (modelled as a
one-element list) and a pair `[e1, e2]` when `defDims == 2`; the dead
placeholder branch of the 2-dim loop (lines 296-298) would use `[]`.
`qTextPct` models the percent display string: `none` for the empty /
unset string, `some x` for the string produced by `d3.format(".1%")`,
represented by the rational the string parses back to (see `pctParse`). -/
structure Pt where
  dim1 : String
  dim2 : String
  qNum : ℚ
  qText : String
  qTextPct : Option ℚ
  qElemNumber : List ℤ
  offset : ℚ
deriving DecidableEq

/-- An entry of `g.data` (`struc`): one group per first-dimension value.
The 1-dim path does not set a `values` field; it is modelled as `[]`. -/
structure Group where
  dim1 : String
  offsetPos : ℚ
  offsetNeg : ℚ
  values : List Pt
deriving DecidableEq

/-- A delta record (lines 343-356).  `points` is the 4-element array
`[p.offset, c.offset, p.qNum, c.qNum]`.  `deltaPct` is the constant `0`
of the source; `measureNumber` is omitted (it reads a field that no
point carries, i.e. it is always `undefined`, and no claim mentions it). -/
structure Delta where
  dim1p : String
  dim1c : String
  dim2 : String
  delta : ℚ
  deltaPct : ℚ
  points : List ℚ
deriving DecidableEq

/-- The outputs of `initData` on the chart object `g`
(`g.nDims, g.normalized, g.data, g.flatData, g.allDim2, g.deltas`).
`g.allCol2` is omitted: the color function `cf` (lines 186-189) is
constantly `0`, and no claim mentions colors. -/
structure Model where
  nDims : ℕ
  normalized : Bool
  data : List Group
  flatData : List Pt
  allDim2 : List String
  deltas : List Delta
deriving DecidableEq

/-- `d3.format(".1%")` renders `x` as a percentage with one decimal
place; `pctParse x` is the rational that the rendered string parses back
to (e.g. `0.3744` renders as `"37.4%"` which parses to `0.374`).
Rounding is to the nearest multiple of `1/1000` (ties upward). -/
def pctParse (x : ℚ) : ℚ := ((round (x * 1000) : ℤ) : ℚ) / 1000

/-- A row of the two-dimensional path: `d[0]`, `d[1]`, `d[2]`. -/
structure Row2d where
  d1 : Cell
  d2 : Cell
  m : Cell
deriving DecidableEq

/-- Out-of-range row access (`row[k]` beyond the row) yields `undefined`
in JS; the modelled paths never access out of range for well-formed rows
(a row of the dispatched width), so the default cell is irrelevant. -/
def cellAt (row : List Cell) (k : ℕ) : Cell := row.getD k ⟨0, none, ""⟩

def toRow2d (row : List Cell) : Row2d := ⟨cellAt row 0, cellAt row 1, cellAt row 2⟩

/-- First-encounter order of the first dimension (the list `p`,
lines 233-235). -/
def dim1Order (rows : List Row2d) : List String :=
  rows.foldl (fun acc r => if r.d1.qText ∈ acc then acc else acc ++ [r.d1.qText]) []

/-- First-encounter order of the second dimension (the list `q`,
lines 236-239). -/
def dim2Order (rows : List Row2d) : List String :=
  rows.foldl (fun acc r => if r.d2.qText ∈ acc then acc else acc ++ [r.d2.qText]) []

/-- State of the edge-collection loop (lines 230-256): `p1` is the first
dimension of the current run (initially the empty string), `p2` the
previous row's second dimension (initially the JS `undefined`, modelled
`none`), `edges` the collected `[p2, c2]` pairs. -/
structure EdgeState where
  p1 : String
  p2 : Option String
  edges : List (Option String × String)
deriving DecidableEq

/-- One iteration of the edge-collection loop.  An edge is recorded only
when two consecutive rows share the same first-dimension value, and only
if not already present. -/
def obsEdgesStep (st : EdgeState) (r : Row2d) : EdgeState :=
  let c2 := r.d2.qText
  if r.d1.qText ≠ st.p1 then ⟨r.d1.qText, some c2, st.edges⟩
  else
    ⟨st.p1, some c2,
      if (st.p2, c2) ∈ st.edges then st.edges else st.edges ++ [(st.p2, c2)]⟩

/-- The observed series-order edges of a 2-dim input. -/
def obsEdges (rows : List Row2d) : List (Option String × String) :=
  (rows.foldl obsEdgesStep ⟨"", none, []⟩).edges

/-- The observed edges with a defined source.  An edge whose source is
the JS `undefined` (only possible when the very first row has an empty
first-dimension text) never matches any node in `visit`'s
`edges.filter(edge => edge[0] === node)`, so dropping such edges does
not change the behaviour of `toposort`. -/
def realEdges (rows : List Row2d) : List (String × String) :=
  (obsEdges rows).filterMap (fun e => e.1.map (fun a => (a, e.2)))

/-- The canonical series order (lines 257-272): the topological sort of
the first-encounter order `q` by the observed edges; if `toposort`
throws, the error is swallowed and `q` itself is used. -/
def seriesOrder (rows : List Row2d) : List String :=
  let q := dim2Order rows
  match toposort q (realEdges rows) with
  | .ok qs => qs
  | .error _ => q

/-! ## The two-dimensional grouping and stacking (lines 274-366)

`d3.nest().key(dim1).key(dim2)` groups rows by first and second
dimension; the code then sorts the outer level into the first-encounter
order `p` of the first dimension and each inner level into the canonical
series order `q`.  Since the outer keys are exactly the distinct first
dimension texts (all members of `p`) and the inner keys of a group are
distinct members of `q`, the sorted result is direct to express: the
outer list is `dim1Order rows` and each group's inner list is the
sub-list of `q` of the series present in the group, each carrying
`values[0]`, the first input row of that (dim1, dim2) pair. -/

/-- The nested-and-sorted entries of one group: for each series of `q`
present in the group (in `q` order), the first matching row
(`d.values[j].values[0]`). -/
def groupLeaves (rows : List Row2d) (q : List String) (d1 : String) :
    List (String × Row2d) :=
  q.filterMap (fun s =>
    ((rows.filter (fun r => r.d1.qText = d1 ∧ r.d2.qText = s)).head?).map
      (fun r => (s, r)))

/-- The sorted nest `n` (lines 274-290): groups in first-encounter order
of the first dimension, each with its series leaves in `q` order. -/
def nestGroups (rows : List Row2d) (q : List String) :
    List (String × List (String × Row2d)) :=
  (dim1Order rows).map (fun d1 => (d1, groupLeaves rows q d1))

/-- A point of the per-group loop before `dim1`/normalization are
attached (the object pushed at lines 317-323). -/
structure Pt0 where
  dim2 : String
  qNum : ℚ
  qText : String
  qElemNumber : List ℤ
  offset : ℚ
deriving DecidableEq

/-- The per-group stacking loop (lines 292-325).  It walks the canonical
series order `q` with a cursor `j` into the group's leaves.  When the
current series has no leaf (`d.values.length <= j || d.values[j].key !=
q[i]`) the JS code computes placeholder values (`num = 0, txt = "-",
elm = []`) but — the `v.push` being inside the `else` branch — pushes
nothing and accumulates nothing; the walk merely moves to the next
series.  Otherwise the leaf's measure is read (`0` when not finite), the
matching-sign running total is extended, and a point is pushed whose
`offset` is the running total before its own value. -/
def buildValsGo (defDims : ℕ) :
    List String → List (String × Row2d) → ℚ → ℚ → List Pt0 →
    List Pt0 × ℚ × ℚ
  | [], _, posT, negT, acc => (acc, posT, negT)
  | s :: qs, leaves, posT, negT, acc =>
    match leaves with
    | [] => buildValsGo defDims qs [] posT negT acc
    | (key, r) :: rest =>
      if key = s then
        let num := r.m.qNum.getD 0
        let txt := r.m.qText
        let elm := if defDims = 2 then [r.d1.qElemNumber, r.d2.qElemNumber]
          else [r.d1.qElemNumber]
        if num < 0 then
          buildValsGo defDims qs rest posT (negT + num)
            (acc ++ [⟨s, num, txt, elm, negT⟩])
        else
          buildValsGo defDims qs rest (posT + num) negT
            (acc ++ [⟨s, num, txt, elm, posT⟩])
      else buildValsGo defDims qs ((key, r) :: rest) posT negT acc

/-- The stacking loop of one group: its points and the two stack tops. -/
def buildVals (defDims : ℕ) (q : List String) (leaves : List (String × Row2d)) :
    List Pt0 × ℚ × ℚ :=
  buildValsGo defDims q leaves 0 0 []

/-- The `v.forEach` pass (lines 326-334): attach `dim1` and, when
`g.normalized`, divide the value and offset by the matching-sign stack
top (`n = e.qNum < 0 ? -negT : posT`) and set the percent text.  In JS a
zero divisor produces NaN/Infinity; in `ℚ` division by zero yields `0` —
every theorem below that depends on a quotient assumes its divisor is
nonzero, and the one counterexample that touches a zero divisor is
refuted by both semantics. -/
def finishVals (dim1 : String) (normalized : Bool) (posT negT : ℚ)
    (v : List Pt0) : List Pt :=
  v.map (fun e =>
    if normalized then
      let n := if e.qNum < 0 then -negT else posT
      ⟨dim1, e.dim2, e.qNum / n, e.qText, some (pctParse (e.qNum / n)),
        e.qElemNumber, e.offset / n⟩
    else ⟨dim1, e.dim2, e.qNum, e.qText, none, e.qElemNumber, e.offset⟩)

/-- One delta record (lines 343-356) for a pair of same-index points of
two adjacent groups.  (`p[k].dim1 || ''` is the identity on strings:
`dim1` is always set by `finishVals`, and `"" || ''` is `''`.) -/
def deltaPair (p c : Pt) : Delta :=
  ⟨p.dim1, c.dim1, p.dim2, c.qNum - p.qNum, 0,
    [p.offset, c.offset, p.qNum, c.qNum]⟩

/-- The deltas of two adjacent groups (lines 338-359): the loop runs
`k < p.length` and requires `c[k]` to exist (`if (p[k] && c[k])`), i.e.
exactly the index pairs below both lengths — `List.zip`. -/
def groupDeltas (p c : List Pt) : List Delta :=
  (p.zip c).map (fun pc => deltaPair pc.1 pc.2)

/-- Accumulator of the main 2-dim group loop (`n.forEach`, lines
291-360).  `prev` is `struc[idx - 1].values` (`none` for `idx = 0`). -/
structure Acc2 where
  struc : List Group
  flat : List Pt
  deltas : List Delta
  prev : Option (List Pt)
deriving DecidableEq

/-- One iteration of the main 2-dim group loop. -/
def build2Step (defDims : ℕ) (showDeltas normalized : Bool) (q : List String)
    (acc : Acc2) (grp : String × List (String × Row2d)) : Acc2 :=
  let b := buildVals defDims q grp.2
  let v := finishVals grp.1 normalized b.2.1 b.2.2 b.1
  { struc := acc.struc ++ [⟨grp.1, b.2.1, b.2.2, v⟩]
    flat := acc.flat ++ v
    deltas := acc.deltas ++
      (if showDeltas then
        (match acc.prev with
        | some p => groupDeltas p v
        | none => []) else [])
    prev := some v }

/-- The two-dimensional path of `initData` (lines 227-366). -/
def initData2 (defDims : ℕ) (showDeltas normalized : Bool)
    (rows : List Row2d) : Model :=
  let q := seriesOrder rows
  let a := (nestGroups rows q).foldl (build2Step defDims showDeltas normalized q)
    ⟨[], [], [], none⟩
  ⟨2, normalized, a.struc, a.flat, q, a.deltas⟩

/-! ## The one-dimensional path and the full `initData` -/

/-- The one-dimensional path (lines 192-225).  Each row becomes one
group without a `values` field (modelled `[]`) and one flat point.  The
raw `d[1].qNum` is used without a finiteness check; a non-finite measure
(`none`) is mapped to `0` here, a deliberate narrowing of the model (JS
would propagate NaN); no theorem below depends on non-finite 1-dim
measures.  `g.deltas` is not assigned in this path, so the prior value
is kept. -/
def initData1 (inData : List (List Cell)) (g : Model) : Model :=
  let step := fun (acc : List Group × List Pt × List String)
      (d : List Cell) =>
    let qn := (cellAt d 1).qNum.getD 0
    let offsetNeg := if qn < 0 then qn else 0
    let offsetPos := if qn < 0 then 0 else qn
    (acc.1 ++ [⟨(cellAt d 0).qText, offsetPos, offsetNeg, []⟩],
     acc.2.1 ++ [⟨(cellAt d 0).qText, (cellAt d 0).qText, qn,
       (cellAt d 1).qText, none, [(cellAt d 0).qElemNumber], 0⟩],
     if (cellAt d 0).qText ∈ acc.2.2 then acc.2.2
     else acc.2.2 ++ [(cellAt d 0).qText])
  let r := inData.foldl step ([], [], [])
  ⟨1, false, r.1, r.2.1, r.2.2, g.deltas⟩

/-- The synthesized pseudo-dimension cell
`{qElemNumber: -1, qNum: j + 1, qText: g.measures[j]}`. -/
def mkMeasureDimCell (j : ℕ) (name : String) : Cell :=
  ⟨-1, some ((j : ℚ) + 1), name⟩

/-- `initData` (lines 146-366) as a function of the configuration
(`defDims`, `defMeas`, `measures`, `showDeltas`, `normalized`), the raw
data, and the prior chart state `g` (whose model fields are left
untouched by the early `return`s).  The `inData = []` case (possible
only when a synthesizing path runs with `measures = []`) is modelled as
a no-op; JS would fail on `inData[0].length` there.  No claim concerns
that corner. -/
def initData (defDims defMeas : ℕ) (measures : List String)
    (showDeltas normalized : Bool) (rawData : List (List Cell))
    (g : Model) : Model :=
  match rawData with
  | [] => g
  | r0 :: _ =>
    if defDims + defMeas ≠ r0.length then g
    else
      let inData : List (List Cell) :=
        if defDims = 0 then
          rawData.foldl (fun acc row =>
            acc ++ measures.enum.map (fun jm =>
              [mkMeasureDimCell jm.1 jm.2, cellAt row jm.1])) []
        else if defDims = 1 ∧ 1 < defMeas then
          rawData.foldl (fun acc row =>
            acc ++ measures.enum.map (fun jm =>
              [cellAt row 0, mkMeasureDimCell jm.1 jm.2,
                cellAt row (jm.1 + 1)])) []
        else rawData
      match inData with
      | [] => g
      | r :: _ =>
        if r.length = 2 then initData1 inData g
        else initData2 defDims showDeltas normalized (inData.map toRow2d)

/-! ## The numeric-scale domain of `initChart` (lines 489-527) -/

/-- The callback of `d3.max(g.data, ...)` (lines 489-504): for
normalized data, `d.offsetPos && d.offsetPos > 0 ? g.gridHeight : 0`;
otherwise the greatest of `0`, `d.offsetPos` and every individual point
offset of the group, times `g.gridHeight`. -/
def groupMaxVal (normalized : Bool) (gridHeight : ℚ) (gr : Group) : ℚ :=
  if normalized then (if gr.offsetPos ≠ 0 ∧ 0 < gr.offsetPos then gridHeight else 0)
  else
    (gr.values.foldl (fun m p => if m < p.offset then p.offset else m)
      (max 0 gr.offsetPos)) * gridHeight

/-- The callback of `d3.min(g.data, ...)` (lines 506-521), symmetric to
`groupMaxVal`. -/
def groupMinVal (normalized : Bool) (gridHeight : ℚ) (gr : Group) : ℚ :=
  if normalized then (if gr.offsetNeg ≠ 0 ∧ gr.offsetNeg < 0 then -gridHeight else 0)
  else
    (gr.values.foldl (fun m p => if p.offset < m then p.offset else m)
      (min 0 gr.offsetNeg)) * gridHeight

/-- `g.max` (line 489): `d3.max` over the groups (`none` for no groups,
like the JS `undefined`). -/
def initChartMax (data : List Group) (normalized : Bool) (gridHeight : ℚ) :
    Option ℚ :=
  (data.map (groupMaxVal normalized gridHeight)).max?

/-- `g.min` (line 506): `d3.min` over the groups. -/
def initChartMin (data : List Group) (normalized : Bool) (gridHeight : ℚ) :
    Option ℚ :=
  (data.map (groupMinVal normalized gridHeight)).min?

/-! ## Label text fitting (`barText`, lines 1337-1463)

Strings to be measured are modelled as `List Char`; the DOM text
measurement `getComputedTextLength()` is an arbitrary function
`mw : List Char → ℚ` of the measured text (the claims hold for every
measurement function). -/

/-- The ellipsis glyph appended by `ellipseText`. -/
def ellipsisChar : Char := '…'

/-- The inner `while` of `ellipseText` (lines 1427-1430): strip trailing
`'.'` and `'-'` characters. -/
def stripTrailDots (t : List Char) : List Char :=
  (t.reverse.dropWhile (fun c => c = '.' ∨ c = '-')).reverse

/-- The outer `while` of `ellipseText` (lines 1425-1433), entered when
the current text does not fit: drop the last character, strip trailing
dots/dashes, and stop as soon as the candidate with the ellipsis glyph
fits (returning it) or the candidate is empty (returning the empty
text, as `txt.length != 0` fails at line 1434). -/
def ellipseGo (mw : List Char → ℚ) (maxLength : ℚ) (t : List Char) :
    List Char :=
  let t' := stripTrailDots t.dropLast
  if t' = [] then []
  else if mw (t' ++ [ellipsisChar]) ≤ maxLength then t' ++ [ellipsisChar]
  else ellipseGo mw maxLength t'
termination_by t.length
decreasing_by
  rename_i hne _
  have h2 : t ≠ [] := by
    intro h
    apply hne
    subst h
    rfl
  have h1 : (stripTrailDots t.dropLast).length ≤ t.dropLast.length := by
    calc (stripTrailDots t.dropLast).length
        = (t.dropLast.reverse.dropWhile
            (fun c => decide (c = '.' ∨ c = '-'))).length := by
          simp [stripTrailDots]
      _ ≤ t.dropLast.reverse.length := (List.dropWhile_sublist _).length_le
      _ = t.dropLast.length := List.length_reverse _
  have h3 := List.length_dropLast t
  have h4 : 0 < t.length := List.length_pos.mpr h2
  omega

/-- `ellipseText` (lines 1422-1438): the whole fitting routine.  If the
initial text fits it is returned unchanged (the loop is skipped and
`g.tref.text()` still holds the initial text). -/
def ellipseText (mw : List Char → ℚ) (maxLength : ℚ) (t : List Char) :
    List Char :=
  if mw t ≤ maxLength then t else ellipseGo mw maxLength t

/-- The TextFitter contract `fit(text, maxPixelWidth, allowEllipsis)`:
the dispatch at lines 1447-1451, with `g.textDots` as `allowEllipsis` —
either `ellipseText`, or (no ellipsis allowed) the text unchanged when
it fits and the empty string otherwise. -/
def fit (allowEllipsis : Bool) (mw : List Char → ℚ) (w : ℚ)
    (t : List Char) : List Char :=
  if allowEllipsis then ellipseText mw w t
  else if w < mw t then [] else t

/-- The three label types of `barText`
(`TYPE_INSIDE_BARS`, `TYPE_TOTAL_POS`, `TYPE_TOTAL_NEG`). -/
inductive LabelType where
  | insideBars
  | totalPos
  | totalNeg
deriving DecidableEq, BEq

/-- The text field of the record returned by `barText` (lines
1337-1463); the geometric fields (`x`, `y`) are not modelled, no claim
mentions them.  `txt` starts as the empty string, is assigned inside the
enough-room conditional (lines 1399-1452) via the `textDots` dispatch,
and is finally forced empty when `g.barGap === 1` (lines 1454-1456).
`label` is the text set on `g.tref` at line 1363 (`getBarLabelText`);
`textBoxHeight` is `getBBox().height`; `barWidth`/`barHeight` are the
scale-derived bar extents. -/
def barText (type : LabelType) (rotateLabel vertical textDots : Bool)
    (textBoxHeight barWidth barHeight innerBarPadV innerBarPadH barGap : ℚ)
    (mw : List Char → ℚ) (label : List Char) : List Char :=
  let rotation : Bool := (type == LabelType.insideBars) && rotateLabel && vertical
  let txt : List Char :=
    if (rotation = true ∧ textBoxHeight + 2 * innerBarPadH ≤ barWidth)
        ∨ (rotation = false ∧ textBoxHeight + 2 * innerBarPadV ≤ barHeight) then
      let maxLength := if type == LabelType.insideBars then
          (if rotation then barHeight - 2 * innerBarPadV
           else barWidth - 2 * innerBarPadH)
        else barWidth
      fit textDots mw maxLength label
    else []
  if barGap = 1 then [] else txt

/-! ## Claim-side definitions

The following definitions phrase properties the way the specification
words them, to be compared with the source-derived definitions above. -/

/-- Default point for index-based access in decidable statements. -/
def dfltPt : Pt := ⟨"", "", 0, "", none, [], 0⟩

/-- The points of a list with non-negative `qNum` (the code's `num < 0`
test sends `0` to the positive stack). -/
def ptsPos (l : List Pt) : List Pt := l.filter (fun e => decide (0 ≤ e.qNum))

/-- The points of a list with negative `qNum`. -/
def ptsNeg (l : List Pt) : List Pt := l.filter (fun e => decide (e.qNum < 0))

/-- Sum of the `qNum` of a list of points. -/
def sumQ (l : List Pt) : ℚ := (l.map Pt.qNum).sum

/-- P2 of the spec: every point's `offset` is the running total of the
same-signed values that precede it in its group. -/
def stackOffsetOK (l : List Pt) : Prop :=
  ∀ i < l.length, (l.getD i dfltPt).offset =
    (if 0 ≤ (l.getD i dfltPt).qNum then sumQ (ptsPos (l.take i))
     else sumQ (ptsNeg (l.take i)))

instance (l : List Pt) : Decidable (stackOffsetOK l) := by
  unfold stackOffsetOK
  infer_instance

/-- What the spec says normalization does to a point: divide value and
offset by the matching-sign stack top of its own group (negated for the
negative side) and attach the one-decimal percent text. -/
def normPt (posT negT : ℚ) (p : Pt) : Pt :=
  let n := if p.qNum < 0 then -negT else posT
  ⟨p.dim1, p.dim2, p.qNum / n, p.qText, some (pctParse (p.qNum / n)),
    p.qElemNumber, p.offset / n⟩

/-- What the spec says normalization does to a group: rescale its points,
keeping the (un-normalized) stack tops. -/
def normGroup (gr : Group) : Group :=
  ⟨gr.dim1, gr.offsetPos, gr.offsetNeg,
    gr.values.map (normPt gr.offsetPos gr.offsetNeg)⟩

/-- The delta list as the spec describes it: for each group after the
first, pair it with its immediate predecessor by slot index (`zip`) and
record the value differences. -/
def adjacentDeltas (data : List Group) : List Delta :=
  ((data.zip data.tail).map
    (fun gg => groupDeltas gg.1.values gg.2.values)).flatten

/-- The spec's per-group maximum for the numeric domain:
`max(0, positive stack top, every individual point offset)`. -/
def specGroupMax (gr : Group) : ℚ :=
  (gr.values.map Pt.offset).foldl max (max 0 gr.offsetPos)

/-- The spec's per-group minimum for the numeric domain. -/
def specGroupMin (gr : Group) : ℚ :=
  (gr.values.map Pt.offset).foldl min (min 0 gr.offsetNeg)

/-- "`a` appears before `b` in `l`": every occurrence of `b` is preceded
by an occurrence of `a`. -/
def appearsBefore (l : List String) (a b : String) : Prop :=
  ∀ j < l.length, l.getD j "" = b → ∃ i < j, l.getD i "" = a

instance (l : List String) (a b : String) : Decidable (appearsBefore l a b) := by
  unfold appearsBefore
  infer_instance

/-- The edge relation of an edge list. -/
def edgeRel (edges : List (String × String)) (x y : String) : Prop :=
  (x, y) ∈ edges

/-- An edge list contains a directed cycle. -/
def hasCycle (edges : List (String × String)) : Prop :=
  ∃ a, Relation.TransGen (edgeRel edges) a a

/-- A sample 2-dim row for concrete instances: dimension texts `a`, `b`
and measure value `v`. -/
def sampleRow (a b : String) (v : ℚ) : Row2d :=
  ⟨⟨1, some 1, a⟩, ⟨2, some 2, b⟩, ⟨3, some v, "v"⟩⟩

/-- The point a non-normalized `finishVals` produces from a loop point. -/
def plainPt (dim1 : String) (e : Pt0) : Pt :=
  ⟨dim1, e.dim2, e.qNum, e.qText, none, e.qElemNumber, e.offset⟩

/-- The group one iteration of the main 2-dim loop pushes onto `struc`
(the `struc.push` of line 336). -/
def mkGroup2 (defDims : ℕ) (normalized : Bool) (q : List String)
    (grp : String × List (String × Row2d)) : Group :=
  let b := buildVals defDims q grp.2
  ⟨grp.1, b.2.1, b.2.2, finishVals grp.1 normalized b.2.1 b.2.2 b.1⟩

/-- The deltas of a sequence of group value lists, paired consecutively
(the accumulated effect of lines 338-359 across the whole group loop). -/
def zipDeltas : Option (List Pt) → List (List Pt) → List Delta
  | _, [] => []
  | none, v :: rest => zipDeltas (some v) rest
  | some p, v :: rest => groupDeltas p v ++ zipDeltas (some v) rest

/-- Default loop point for index-based access in decidable statements. -/
def dfltPt0 : Pt0 := ⟨"", 0, "", [], 0⟩

/-- Sum of the non-negative values of a loop-point list. -/
def sumQ0Pos (l : List Pt0) : ℚ :=
  ((l.filter (fun e => decide (0 ≤ e.qNum))).map Pt0.qNum).sum

/-- Sum of the negative values of a loop-point list. -/
def sumQ0Neg (l : List Pt0) : ℚ :=
  ((l.filter (fun e => decide (e.qNum < 0))).map Pt0.qNum).sum

/-- The offset invariant on loop points, before `dim1`/normalization are
attached. -/
def stackOffsetOK0 (l : List Pt0) : Prop :=
  ∀ i < l.length, (l.getD i dfltPt0).offset =
    (if 0 ≤ (l.getD i dfltPt0).qNum then sumQ0Pos (l.take i)
     else sumQ0Neg (l.take i))

/-- The valid `visited` keys of `toposort`: the indices `0 .. n-1`. -/
def validSet (nodes : List String) : Finset ℤ :=
  (Finset.range nodes.length).map
    ⟨fun k : ℕ => (k : ℤ), fun a b h => by
      simpa using h⟩

/-- The node a valid index denotes. -/
def idxVal (nodes : List String) (i : ℤ) : String := nodes.getD i.toNat ""

/-- The nodes denoted by the marked (visited) indices, as a multiset. -/
def markedVals (nodes : List String) (st : TState) : Multiset String :=
  st.marked.val.map (idxVal nodes)

/-- Every occurrence of an edge's source in the completion order is
preceded by an occurrence of its target (children complete first). -/
def compOrdered (edges : List (String × String)) (comp : List String) : Prop :=
  ∀ e ∈ edges, ∀ t, ∀ ht : t < comp.length, comp.get ⟨t, ht⟩ = e.1 →
    ∃ s, ∃ hs : s < comp.length, s < t ∧ comp.get ⟨s, hs⟩ = e.2

/-- The invariant of `visit`: visited keys are valid, the visited nodes
are exactly the completed ones plus the current predecessor chain, and
the completion order respects the edges. -/
def TInv (nodes : List String) (edges : List (String × String))
    (preds : List String) (st : TState) : Prop :=
  st.marked ⊆ validSet nodes ∧
  markedVals nodes st = (st.comp : Multiset String) + (preds : Multiset String) ∧
  compOrdered edges st.comp

/-! ## Theorems -/

/-! ### Text fitting (claims C8, C9) -/

lemma ellipseGo_nil (mw : List Char → ℚ) (w : ℚ) : ellipseGo mw w [] = [] := by
  rw [ellipseGo]
  rfl

/-- The shortened candidate is strictly shorter (the termination measure
of `ellipseGo`). -/
lemma stripTrailDots_dropLast_lt (t : List Char)
    (h : stripTrailDots t.dropLast ≠ []) :
    (stripTrailDots t.dropLast).length < t.length := by
  have h2 : t ≠ [] := by
    intro ht
    apply h
    subst ht
    rfl
  have h1 : (stripTrailDots t.dropLast).length ≤ t.dropLast.length := by
    calc (stripTrailDots t.dropLast).length
        = (t.dropLast.reverse.dropWhile
            (fun c => decide (c = '.' ∨ c = '-'))).length := by
          simp [stripTrailDots]
      _ ≤ t.dropLast.reverse.length := (List.dropWhile_sublist _).length_le
      _ = t.dropLast.length := List.length_reverse _
  have h3 := List.length_dropLast t
  have h4 : 0 < t.length := List.length_pos.mpr h2
  omega

/-- `ellipseGo` either gives up (empty result) or returns a candidate
that carries the ellipsis glyph and fits. -/
lemma ellipseGo_cases (mw : List Char → ℚ) (w : ℚ) : ∀ t : List Char,
    ellipseGo mw w t = [] ∨
    ∃ t', ellipseGo mw w t = t' ++ [ellipsisChar] ∧ mw (t' ++ [ellipsisChar]) ≤ w := by
  have main : ∀ (n : ℕ) (t : List Char), t.length ≤ n →
      ellipseGo mw w t = [] ∨
      ∃ t', ellipseGo mw w t = t' ++ [ellipsisChar] ∧
        mw (t' ++ [ellipsisChar]) ≤ w := by
    intro n
    induction n with
    | zero =>
      intro t ht
      have : t = [] := List.length_eq_zero.mp (Nat.le_zero.mp ht)
      subst this
      rw [ellipseGo_nil]
      exact Or.inl rfl
    | succ n ih =>
      intro t ht
      rw [ellipseGo]
      by_cases h1 : stripTrailDots t.dropLast = []
      · simp [h1]
      · rw [if_neg h1]
        by_cases h2 : mw (stripTrailDots t.dropLast ++ [ellipsisChar]) ≤ w
        · rw [if_pos h2]
          exact Or.inr ⟨stripTrailDots t.dropLast, rfl, h2⟩
        · rw [if_neg h2]
          have hlt := stripTrailDots_dropLast_lt t h1
          exact ih (stripTrailDots t.dropLast) (by omega)
  exact fun t => main t.length t le_rfl

/-- A text that already fits is returned unchanged. -/
lemma ellipseText_of_fits (mw : List Char → ℚ) (w : ℚ) (t : List Char)
    (h : mw t ≤ w) : ellipseText mw w t = t := by
  simp [ellipseText, h]

/-- Refitting the output of `ellipseText` is the identity. -/
lemma ellipseText_idem (mw : List Char → ℚ) (w : ℚ) (t : List Char) :
    ellipseText mw w (ellipseText mw w t) = ellipseText mw w t := by
  by_cases h : mw t ≤ w
  · rw [ellipseText_of_fits mw w t h, ellipseText_of_fits mw w t h]
  · have hgo : ellipseText mw w t = ellipseGo mw w t := by simp [ellipseText, h]
    rcases ellipseGo_cases mw w t with hnil | ⟨t', ht', hfit⟩
    · rw [hgo, hnil]
      by_cases h0 : mw [] ≤ w
      · rw [ellipseText_of_fits mw w [] h0]
      · simp [ellipseText, h0, ellipseGo_nil]
    · rw [hgo, ht', ellipseText_of_fits mw w _ hfit]

/-- C8: For every data point and every label type (inside-bar, positive
total, negative total), when `barGap` equals `1` the text returned by
`barText` is the empty string, regardless of all other text settings
(the theorem quantifies over every label, measurement function,
geometry, padding, alignment-independent room outcome and `textDots`
setting). -/
theorem barText_empty_of_barGap_one
    (type : LabelType) (rotateLabel vertical textDots : Bool)
    (textBoxHeight barWidth barHeight innerBarPadV innerBarPadH : ℚ)
    (mw : List Char → ℚ) (label : List Char) :
    barText type rotateLabel vertical textDots textBoxHeight barWidth
      barHeight innerBarPadV innerBarPadH 1 mw label = [] := by
  simp [barText]

/-- C9: The ellipsis fitting algorithm is idempotent —
`fit (fit text w true) w true = fit text w true` for every measurement
function, width and text; and with ellipsis disallowed the output is the
unmodified text when it fits and the empty string otherwise. -/
theorem fit_idempotent_and_no_ellipsis (mw : List Char → ℚ) (w : ℚ)
    (t : List Char) :
    fit true mw w (fit true mw w t) = fit true mw w t ∧
    (mw t ≤ w → fit false mw w t = t) ∧
    (w < mw t → fit false mw w t = []) := by
  refine ⟨?_, ?_, ?_⟩
  · simp only [fit, if_pos]
    exact ellipseText_idem mw w t
  · intro h
    simp [fit, not_lt.mpr h]
  · intro h
    simp [fit, h]

/-- Witness for C9 at a concrete measurement function (character count),
width and texts. -/
theorem fit_idempotent_and_no_ellipsis_witness :
    (fun mw : List Char → ℚ => fun t : List Char =>
      (fit true mw 1 (fit true mw 1 t) = fit true mw 1 t ∧
        fit false mw 1 ['a'] = ['a'] ∧
        fit false mw 1 ['a', 'b'] = []))
      (fun l => (l.length : ℚ)) ['a', 'b'] := by
  refine ⟨(fit_idempotent_and_no_ellipsis _ 1 _).1,
    (fit_idempotent_and_no_ellipsis (fun l => (l.length : ℚ)) 1 ['a']).2.1
      (by norm_num),
    (fit_idempotent_and_no_ellipsis (fun l => (l.length : ℚ)) 1 ['a', 'b']).2.2
      (by norm_num)⟩

/-! ### Malformed input (claim C7) -/

/-- C7 (counterexample): the claim says a malformed input yields an
*empty* model; in fact `initData` returns early *without touching* the
model (`if (!g.rawData[0]) return;`), so a previously built non-empty
model survives: calling `initData` with no rows on a chart whose model
has one group leaves that group in place. -/
theorem initData_malformed_not_empty_cex :
    (initData 1 1 [] false false []
      ⟨2, false, [⟨"A", 1, 0, []⟩], [], ["A"], []⟩).data ≠ [] := by
  simp [initData]

/-- C7 (amended): for every input whose raw rows are absent/empty or
whose configured dimension count plus measure count differs from the
width of the first raw row, `initData` returns without throwing and
leaves the chart model exactly as it was (a no-op; in particular,
starting from an empty model the model stays empty). -/
theorem initData_malformed_noop (defDims defMeas : ℕ) (measures : List String)
    (showDeltas normalized : Bool) (rawData : List (List Cell)) (g : Model)
    (h : rawData = [] ∨
      ∃ r0 rest, rawData = r0 :: rest ∧ defDims + defMeas ≠ r0.length) :
    initData defDims defMeas measures showDeltas normalized rawData g = g := by
  rcases h with h | ⟨r0, rest, hr, hw⟩
  · subst h
    rfl
  · subst hr
    simp [initData, hw]

/-- Witness for C7 (amended) at concrete inputs: an empty raw-data array
and a width-mismatched one, both left as-is. -/
theorem initData_malformed_noop_witness :
    initData 1 1 [] false false [] ⟨0, false, [], [], [], []⟩
        = ⟨0, false, [], [], [], []⟩ ∧
    initData 2 1 [] false false [[⟨0, none, "x"⟩]] ⟨0, false, [], [], [], []⟩
        = ⟨0, false, [], [], [], []⟩ :=
  ⟨initData_malformed_noop 1 1 [] false false [] _ (Or.inl rfl),
   initData_malformed_noop 2 1 [] false false [[⟨0, none, "x"⟩]] _
     (Or.inr ⟨[⟨0, none, "x"⟩], [], rfl, by norm_num⟩)⟩

/-! ### The numeric-scale domain (claim C6) -/

/-- `List.max?` on `ℚ` characterized as the greatest element. -/
lemma ratMax?_eq_some_iff {a : ℚ} {xs : List ℚ} :
    xs.max? = some a ↔ a ∈ xs ∧ ∀ b ∈ xs, b ≤ a :=
  @List.max?_eq_some_iff ℚ a _ _ ⟨fun h1 h2 => le_antisymm h1 h2⟩
    (fun _ => le_refl _) max_choice (fun _ _ _ => max_le_iff) xs

/-- `List.min?` on `ℚ` characterized as the least element. -/
lemma ratMin?_eq_some_iff {a : ℚ} {xs : List ℚ} :
    xs.min? = some a ↔ a ∈ xs ∧ ∀ b ∈ xs, a ≤ b :=
  @List.min?_eq_some_iff ℚ a _ _ ⟨fun h1 h2 => le_antisymm h1 h2⟩
    (fun _ => le_refl _) min_choice (fun _ _ _ => le_min_iff) xs

/-- The update `if m < x then x else m` of the `forEach` sweep is `max`. -/
lemma ite_lt_eq_max (m x : ℚ) : (if m < x then x else m) = max m x := by
  rcases le_or_lt x m with h | h
  · rw [if_neg (not_lt.mpr h), max_eq_left h]
  · rw [if_pos h, max_eq_right (le_of_lt h)]

/-- The update `if x < m then x else m` of the `forEach` sweep is `min`. -/
lemma ite_lt_eq_min (m x : ℚ) : (if x < m then x else m) = min m x := by
  rcases le_or_lt m x with h | h
  · rw [if_neg (not_lt.mpr h), min_eq_left h]
  · rw [if_pos h, min_eq_right (le_of_lt h)]

/-- The non-normalized per-group maximum of `initChart` is the spec's
`max(0, positive stack top, every point offset)`, scaled. -/
lemma groupMaxVal_false (gh : ℚ) (gr : Group) :
    groupMaxVal false gh gr = specGroupMax gr * gh := by
  have hfun : (fun (m : ℚ) (p : Pt) => if m < p.offset then p.offset else m)
      = fun (m : ℚ) (p : Pt) => max m p.offset := by
    funext m p
    exact ite_lt_eq_max m p.offset
  simp only [groupMaxVal, specGroupMax, if_neg (Bool.false_ne_true),
    List.foldl_map, hfun]

/-- The non-normalized per-group minimum of `initChart`, scaled. -/
lemma groupMinVal_false (gh : ℚ) (gr : Group) :
    groupMinVal false gh gr = specGroupMin gr * gh := by
  have hfun : (fun (m : ℚ) (p : Pt) => if p.offset < m then p.offset else m)
      = fun (m : ℚ) (p : Pt) => min m p.offset := by
    funext m p
    exact ite_lt_eq_min m p.offset
  simp only [groupMinVal, specGroupMin, if_neg (Bool.false_ne_true),
    List.foldl_map, hfun]

/-- Scaling by a nonneg factor commutes with the list maximum. -/
lemma max?_map_mul (l : List ℚ) (c : ℚ) (hc : 0 ≤ c) :
    (l.map (fun x => x * c)).max? = l.max?.map (fun m => m * c) := by
  match hl : l.max? with
  | none =>
    rw [List.max?_eq_none_iff.mp hl]
    rfl
  | some m =>
    obtain ⟨hmem, hbound⟩ := ratMax?_eq_some_iff.mp hl
    rw [Option.map_some']
    exact ratMax?_eq_some_iff.mpr ⟨List.mem_map_of_mem _ hmem,
      by
        intro b hb
        obtain ⟨x, hx, rfl⟩ := List.mem_map.mp hb
        exact mul_le_mul_of_nonneg_right (hbound x hx) hc⟩

/-- Scaling by a nonneg factor commutes with the list minimum. -/
lemma min?_map_mul (l : List ℚ) (c : ℚ) (hc : 0 ≤ c) :
    (l.map (fun x => x * c)).min? = l.min?.map (fun m => m * c) := by
  match hl : l.min? with
  | none =>
    have : l = [] := by
      cases l with
      | nil => rfl
      | cons a as => simp [List.min?] at hl
    rw [this]
    rfl
  | some m =>
    obtain ⟨hmem, hbound⟩ := ratMin?_eq_some_iff.mp hl
    rw [Option.map_some']
    exact ratMin?_eq_some_iff.mpr ⟨List.mem_map_of_mem _ hmem,
      by
        intro b hb
        obtain ⟨x, hx, rfl⟩ := List.mem_map.mp hb
        exact mul_le_mul_of_nonneg_right (hbound x hx) hc⟩

/-- The normalized branch of the `d3.max` callback collapses to a test
of `0 < offsetPos` (a nonzero positive is exactly a positive). -/
lemma groupMaxVal_true (gh : ℚ) (gr : Group) :
    groupMaxVal true gh gr = if 0 < gr.offsetPos then gh else 0 := by
  by_cases h : 0 < gr.offsetPos
  · simp [groupMaxVal, h, ne_of_gt h]
  · simp [groupMaxVal, h]

lemma groupMinVal_true (gh : ℚ) (gr : Group) :
    groupMinVal true gh gr = if gr.offsetNeg < 0 then -gh else 0 := by
  by_cases h : gr.offsetNeg < 0
  · simp [groupMinVal, h, ne_of_lt h]
  · simp [groupMinVal, h]

/-- C6: the pre-nice numeric domain `[g.min, g.max]` computed in
`initChart` (lines 489-527).  When normalized, the maximum is
`gridHeight` exactly when some group has a positive stack top (else `0`),
and the minimum is `-gridHeight` exactly when some group has a negative
stack top (else `0`); otherwise the maximum (resp. minimum) is
`gridHeight` times the greatest (resp. least), over the groups, of
`max(0, positive stack top, every individual point offset)` (resp. the
`min` analogue) — the sweep includes every point offset, not just the
stack tops.  Hypotheses: at least one group (else `d3.max` yields the
JS `undefined`, i.e. `none`) and a positive `gridHeight` (the
configuration guarantees `gridHeight > 0`). -/
theorem initChart_domain_spec (data : List Group) (gridHeight : ℚ)
    (hne : data ≠ []) (hgh : 0 < gridHeight) :
    initChartMax data true gridHeight
        = some (if ∃ gr ∈ data, 0 < gr.offsetPos then gridHeight else 0) ∧
    initChartMin data true gridHeight
        = some (if ∃ gr ∈ data, gr.offsetNeg < 0 then -gridHeight else 0) ∧
    initChartMax data false gridHeight
        = ((data.map specGroupMax).max?).map (fun m => m * gridHeight) ∧
    initChartMin data false gridHeight
        = ((data.map specGroupMin).min?).map (fun m => m * gridHeight) := by
  obtain ⟨gr0, hgr0⟩ := List.exists_mem_of_ne_nil data hne
  refine ⟨?_, ?_, ?_, ?_⟩
  · rw [initChartMax]
    have hmap : data.map (groupMaxVal true gridHeight)
        = data.map (fun gr => if 0 < gr.offsetPos then gridHeight else 0) :=
      List.map_congr_left (fun gr _ => groupMaxVal_true gridHeight gr)
    rw [hmap]
    by_cases hex : ∃ gr ∈ data, 0 < gr.offsetPos
    · obtain ⟨gr1, hgr1, hpos⟩ := hex
      rw [if_pos ⟨gr1, hgr1, hpos⟩]
      refine ratMax?_eq_some_iff.mpr ⟨?_, ?_⟩
      · exact List.mem_map.mpr ⟨gr1, hgr1, by rw [if_pos hpos]⟩
      · intro b hb
        obtain ⟨gr2, _, rfl⟩ := List.mem_map.mp hb
        by_cases h2 : 0 < gr2.offsetPos
        · rw [if_pos h2]
        · rw [if_neg h2]
          exact le_of_lt hgh
    · rw [if_neg hex]
      refine ratMax?_eq_some_iff.mpr ⟨?_, ?_⟩
      · refine List.mem_map.mpr ⟨gr0, hgr0, ?_⟩
        rw [if_neg (fun h => hex ⟨gr0, hgr0, h⟩)]
      · intro b hb
        obtain ⟨gr2, hgr2, rfl⟩ := List.mem_map.mp hb
        rw [if_neg (fun h => hex ⟨gr2, hgr2, h⟩)]
  · rw [initChartMin]
    have hmap : data.map (groupMinVal true gridHeight)
        = data.map (fun gr => if gr.offsetNeg < 0 then -gridHeight else 0) :=
      List.map_congr_left (fun gr _ => groupMinVal_true gridHeight gr)
    rw [hmap]
    by_cases hex : ∃ gr ∈ data, gr.offsetNeg < 0
    · obtain ⟨gr1, hgr1, hneg⟩ := hex
      rw [if_pos ⟨gr1, hgr1, hneg⟩]
      refine ratMin?_eq_some_iff.mpr ⟨?_, ?_⟩
      · exact List.mem_map.mpr ⟨gr1, hgr1, by rw [if_pos hneg]⟩
      · intro b hb
        obtain ⟨gr2, _, rfl⟩ := List.mem_map.mp hb
        by_cases h2 : gr2.offsetNeg < 0
        · rw [if_pos h2]
        · rw [if_neg h2]
          linarith
    · rw [if_neg hex]
      refine ratMin?_eq_some_iff.mpr ⟨?_, ?_⟩
      · refine List.mem_map.mpr ⟨gr0, hgr0, ?_⟩
        rw [if_neg (fun h => hex ⟨gr0, hgr0, h⟩)]
      · intro b hb
        obtain ⟨gr2, hgr2, rfl⟩ := List.mem_map.mp hb
        rw [if_neg (fun h => hex ⟨gr2, hgr2, h⟩)]
  · rw [initChartMax]
    have hmap : data.map (groupMaxVal false gridHeight)
        = (data.map specGroupMax).map (fun m => m * gridHeight) := by
      rw [List.map_map]
      exact List.map_congr_left (fun gr _ => groupMaxVal_false gridHeight gr)
    rw [hmap, max?_map_mul _ _ (le_of_lt hgh)]
  · rw [initChartMin]
    have hmap : data.map (groupMinVal false gridHeight)
        = (data.map specGroupMin).map (fun m => m * gridHeight) := by
      rw [List.map_map]
      exact List.map_congr_left (fun gr _ => groupMinVal_false gridHeight gr)
    rw [hmap, min?_map_mul _ _ (le_of_lt hgh)]

/-- Witness for C6 at a concrete two-group model and `gridHeight = 2`. -/
theorem initChart_domain_spec_witness :
    initChartMax [⟨"A", 3, -2, [⟨"A", "X", 3, "3", none, [1], 5⟩]⟩,
      ⟨"B", 0, 0, []⟩] true 2 = some 2 := by
  rw [(initChart_domain_spec [⟨"A", 3, -2, [⟨"A", "X", 3, "3", none, [1], 5⟩]⟩,
      ⟨"B", 0, 0, []⟩] 2 (by simp) (by norm_num)).1]
  rw [if_pos ⟨⟨"A", 3, -2, [⟨"A", "X", 3, "3", none, [1], 5⟩]⟩,
    by simp, by norm_num⟩]

/-! ### The stacking loop (claims C1-C4) -/

/-- Exhausted leaves: the walk just runs the series order out, pushing
and accumulating nothing. -/
lemma buildValsGo_nil_leaves (dd : ℕ) :
    ∀ (q : List String) (posT negT : ℚ) (acc : List Pt0),
      buildValsGo dd q [] posT negT acc = (acc, posT, negT) := by
  intro q
  induction q with
  | nil => intro posT negT acc; rfl
  | cons s qs ih => intro posT negT acc; rw [buildValsGo]; exact ih posT negT acc

lemma sumQ0Pos_append (l : List Pt0) (e : Pt0) :
    sumQ0Pos (l ++ [e]) = sumQ0Pos l + (if 0 ≤ e.qNum then e.qNum else 0) := by
  by_cases h : 0 ≤ e.qNum <;>
    simp [sumQ0Pos, List.filter_append, h]

lemma sumQ0Neg_append (l : List Pt0) (e : Pt0) :
    sumQ0Neg (l ++ [e]) = sumQ0Neg l + (if e.qNum < 0 then e.qNum else 0) := by
  by_cases h : e.qNum < 0 <;>
    simp [sumQ0Neg, List.filter_append, h]

/-- Appending a point whose offset is the appropriate running total
preserves the offset invariant. -/
lemma stackOffsetOK0_append (l : List Pt0) (e : Pt0)
    (hok : stackOffsetOK0 l)
    (he : e.offset = if 0 ≤ e.qNum then sumQ0Pos l else sumQ0Neg l) :
    stackOffsetOK0 (l ++ [e]) := by
  intro i hi
  rcases lt_or_ge i l.length with hlt | hge
  · rw [List.getD_append _ _ _ _ hlt,
      List.take_append_of_le_length (le_of_lt hlt)]
    exact hok i hlt
  · have hlen : i = l.length := by
      simp only [List.length_append, List.length_singleton] at hi
      omega
    subst hlen
    rw [List.getD_append_right _ _ _ _ le_rfl]
    simp only [Nat.sub_self, List.getD_cons_zero,
      List.take_append_of_le_length le_rfl, List.take_length]
    exact he

/-- The stacking-loop invariant: the running totals are the sums of the
same-signed values pushed so far, and every pushed point's offset is the
matching-sign running total before its own value. -/
lemma buildValsGo_inv (dd : ℕ) :
    ∀ (q : List String) (leaves : List (String × Row2d)) (acc : List Pt0)
      (posT negT : ℚ),
      posT = sumQ0Pos acc → negT = sumQ0Neg acc → stackOffsetOK0 acc →
      (buildValsGo dd q leaves posT negT acc).2.1
          = sumQ0Pos (buildValsGo dd q leaves posT negT acc).1 ∧
      (buildValsGo dd q leaves posT negT acc).2.2
          = sumQ0Neg (buildValsGo dd q leaves posT negT acc).1 ∧
      stackOffsetOK0 (buildValsGo dd q leaves posT negT acc).1 := by
  intro q
  induction q with
  | nil =>
    intro leaves acc posT negT hp hn hok
    exact ⟨hp, hn, hok⟩
  | cons s qs ih =>
    intro leaves acc posT negT hp hn hok
    match leaves with
    | [] =>
      rw [buildValsGo]
      exact ih [] acc posT negT hp hn hok
    | (key, r) :: rest =>
      rw [buildValsGo]
      by_cases hkey : key = s
      · rw [if_pos hkey]
        by_cases hneg : r.m.qNum.getD 0 < 0
        · rw [if_pos hneg]
          refine ih rest _ _ _ ?_ ?_ ?_
          · rw [sumQ0Pos_append, hp]
            simp [not_le.mpr hneg]
          · rw [sumQ0Neg_append, hn]
            simp [hneg]
          · refine stackOffsetOK0_append acc _ hok ?_
            simp [not_le.mpr hneg, hn]
        · rw [if_neg hneg]
          refine ih rest _ _ _ ?_ ?_ ?_
          · rw [sumQ0Pos_append, hp]
            simp [not_lt.mp hneg]
          · rw [sumQ0Neg_append, hn]
            simp [hneg]
          · refine stackOffsetOK0_append acc _ hok ?_
            simp [not_lt.mp hneg, hp]
      · rw [if_neg hkey]
        exact ih ((key, r) :: rest) acc posT negT hp hn hok

/-- The walk consumes every leaf when the leaf keys are (in order) a
sub-list of the series order: the pushed points' series are exactly the
leaf keys, in order. -/
lemma buildValsGo_map_dim2 (dd : ℕ) :
    ∀ (q : List String) (leaves : List (String × Row2d)) (acc : List Pt0)
      (posT negT : ℚ),
      (leaves.map Prod.fst).Sublist q →
      (buildValsGo dd q leaves posT negT acc).1.map Pt0.dim2
        = acc.map Pt0.dim2 ++ leaves.map Prod.fst := by
  intro q
  induction q with
  | nil =>
    intro leaves acc posT negT hsub
    have : leaves.map Prod.fst = [] := List.sublist_nil.mp hsub
    have hleaves : leaves = [] := by
      cases leaves with
      | nil => rfl
      | cons a as => simp at this
    subst hleaves
    simp [buildValsGo]
  | cons s qs ih =>
    intro leaves acc posT negT hsub
    match leaves with
    | [] =>
      rw [buildValsGo, buildValsGo_nil_leaves]
      simp
    | (key, r) :: rest =>
      rw [buildValsGo]
      by_cases hkey : key = s
      · subst hkey
        rw [if_pos rfl]
        have hsub' : (rest.map Prod.fst).Sublist qs := by
          rw [List.map_cons] at hsub
          exact List.cons_sublist_cons.mp hsub
        by_cases hneg : r.m.qNum.getD 0 < 0
        · rw [if_pos hneg, ih rest _ _ _ hsub']
          simp
        · rw [if_neg hneg, ih rest _ _ _ hsub']
          simp
      · rw [if_neg hkey]
        have hsub' : (((key, r) :: rest).map Prod.fst).Sublist qs := by
          rw [List.map_cons] at hsub ⊢
          cases hsub with
          | cons _ h' => exact h'
          | cons₂ _ h' => exact absurd rfl hkey
        exact ih ((key, r) :: rest) acc posT negT hsub'

/-- `finishVals` without normalization only attaches `dim1`. -/
lemma finishVals_false (dim1 : String) (posT negT : ℚ) (v : List Pt0) :
    finishVals dim1 false posT negT v = v.map (plainPt dim1) := by
  simp [finishVals, plainPt]

/-- `finishVals` with normalization is the spec's `normPt` rescaling of
the non-normalized points. -/
lemma finishVals_true (dim1 : String) (posT negT : ℚ) (v : List Pt0) :
    finishVals dim1 true posT negT v
      = (finishVals dim1 false posT negT v).map (normPt posT negT) := by
  rw [finishVals_false, List.map_map]
  apply List.map_congr_left
  intro e _
  simp [finishVals, normPt, plainPt]

/-- Sums transfer from loop points to finished (non-normalized) points. -/
lemma sumQ_ptsPos_map_plain (dim1 : String) (v : List Pt0) :
    sumQ (ptsPos (v.map (plainPt dim1))) = sumQ0Pos v := by
  simp only [sumQ, ptsPos, sumQ0Pos, List.filter_map]
  rw [List.map_map]
  rfl

lemma sumQ_ptsNeg_map_plain (dim1 : String) (v : List Pt0) :
    sumQ (ptsNeg (v.map (plainPt dim1))) = sumQ0Neg v := by
  simp only [sumQ, ptsNeg, sumQ0Neg, List.filter_map]
  rw [List.map_map]
  rfl

/-- The offset invariant transfers to finished points. -/
lemma stackOffsetOK_map_plain (dim1 : String) (v : List Pt0)
    (hok : stackOffsetOK0 v) : stackOffsetOK (v.map (plainPt dim1)) := by
  intro i hi
  rw [List.length_map] at hi
  have hget : (v.map (plainPt dim1)).getD i dfltPt = plainPt dim1 (v.getD i dfltPt0) := by
    rw [List.getD_eq_get?, List.getD_eq_get?, List.get?_map]
    rw [(List.get?_eq_get hi : v.get? i = _)]
    rfl
  rw [hget, ← List.map_take]
  show (v.getD i dfltPt0).offset = _
  rw [sumQ_ptsPos_map_plain, sumQ_ptsNeg_map_plain]
  exact hok i hi

/-- The group list built by the main loop: one `mkGroup2` per nest
entry, in order, independent of the accumulator. -/
lemma build2_foldl_struc (dd : ℕ) (sd nz : Bool) (q : List String) :
    ∀ (gl : List (String × List (String × Row2d))) (acc : Acc2),
      (gl.foldl (build2Step dd sd nz q) acc).struc
        = acc.struc ++ gl.map (mkGroup2 dd nz q) := by
  intro gl
  induction gl with
  | nil => intro acc; simp
  | cons grp rest ih =>
    intro acc
    rw [List.foldl_cons, ih]
    simp [build2Step, mkGroup2]

/-- The data of the 2-dim path, group by group. -/
lemma initData2_data (dd : ℕ) (sd nz : Bool) (rows : List Row2d) :
    (initData2 dd sd nz rows).data
      = (nestGroups rows (seriesOrder rows)).map
          (mkGroup2 dd nz (seriesOrder rows)) := by
  show (((nestGroups rows (seriesOrder rows)).foldl
    (build2Step dd sd nz (seriesOrder rows)) ⟨[], [], [], none⟩).struc) = _
  rw [build2_foldl_struc]
  rfl

/-- The per-group stack invariant for a non-normalized group. -/
lemma mkGroup2_false_spec (dd : ℕ) (q : List String)
    (grp : String × List (String × Row2d)) :
    sumQ (ptsPos (mkGroup2 dd false q grp).values)
        = (mkGroup2 dd false q grp).offsetPos ∧
    sumQ (ptsNeg (mkGroup2 dd false q grp).values)
        = (mkGroup2 dd false q grp).offsetNeg ∧
    stackOffsetOK (mkGroup2 dd false q grp).values := by
  have h0 : stackOffsetOK0 ([] : List Pt0) := by
    intro i hi
    simp at hi
  obtain ⟨h1, h2, h3⟩ := buildValsGo_inv dd q grp.2 [] 0 0 rfl rfl h0
  show sumQ (ptsPos (finishVals grp.1 false _ _ _)) = _ ∧
    sumQ (ptsNeg (finishVals grp.1 false _ _ _)) = _ ∧
    stackOffsetOK (finishVals grp.1 false _ _ _)
  rw [finishVals_false, sumQ_ptsPos_map_plain, sumQ_ptsNeg_map_plain]
  exact ⟨h1.symm, h2.symm, stackOffsetOK_map_plain _ _ h3⟩

/-- C1 (amended, the claim restricted to `normalized = false`): in the
2-dimensional path every group satisfies the stack invariant — the sum
of its points' non-negative `qNum` equals the group's `offsetPos`, the
sum of the negative `qNum` equals `offsetNeg`, and every point's
`offset` is the running same-signed total accumulated before adding the
point's own value. -/
theorem stack_invariant_unnormalized (dd : ℕ) (sd : Bool)
    (rows : List Row2d) :
    ∀ gr ∈ (initData2 dd sd false rows).data,
      sumQ (ptsPos gr.values) = gr.offsetPos ∧
      sumQ (ptsNeg gr.values) = gr.offsetNeg ∧
      stackOffsetOK gr.values := by
  intro gr hgr
  rw [initData2_data] at hgr
  obtain ⟨grp, _, rfl⟩ := List.mem_map.mp hgr
  exact mkGroup2_false_spec dd (seriesOrder rows) grp

/-- C1 (counterexample to the claim as stated): with `normalized = true`
(also an input `initData`'s 2-dimensional path accepts) the point values
are rescaled but the stack tops keep the un-normalized totals, so the
sums no longer match: two points of `100` give `offsetPos = 200` while
the normalized values sum to `1`. -/
theorem stack_invariant_cex :
    ∃ gr ∈ (initData2 2 false true
        [sampleRow "A" "X" 100, sampleRow "A" "Y" 100]).data,
      sumQ (ptsPos gr.values) ≠ gr.offsetPos := by
  simp +decide [initData2, seriesOrder, dim2Order, realEdges, obsEdges,
    obsEdgesStep, toposort, topLoop, visitF, visitListF, jsIndexOf,
    nestGroups, dim1Order, groupLeaves, build2Step, buildVals, buildValsGo,
    finishVals, pctParse, sumQ, ptsPos, sampleRow]
  norm_num

/-- Witness for C1 (amended) at a concrete mixed-sign input. -/
theorem stack_invariant_unnormalized_witness :
    ∃ gr ∈ (initData2 2 false false
        [sampleRow "A" "X" 100, sampleRow "A" "Y" (-50)]).data,
      sumQ (ptsPos gr.values) = gr.offsetPos ∧
      sumQ (ptsNeg gr.values) = gr.offsetNeg ∧
      stackOffsetOK gr.values := by
  have hne : (initData2 2 false false
      [sampleRow "A" "X" 100, sampleRow "A" "Y" (-50)]).data ≠ [] := by
    simp +decide [initData2, seriesOrder, dim2Order, realEdges, obsEdges,
      obsEdgesStep, toposort, topLoop, visitF, visitListF, jsIndexOf,
      nestGroups, dim1Order, groupLeaves, build2Step, buildVals, buildValsGo,
      finishVals, sampleRow]
  obtain ⟨gr, hgr⟩ := List.exists_mem_of_ne_nil _ hne
  exact ⟨gr, hgr, stack_invariant_unnormalized 2 false _ gr hgr⟩

/-! ### Missing series (claim C2) -/

/-- The keys of a group's nest leaves are the series of `q` present in
the group, in `q` order. -/
lemma groupLeaves_map_fst (rows : List Row2d) (d1 : String) :
    ∀ q : List String,
      (groupLeaves rows q d1).map Prod.fst
        = q.filter (fun s => rows.any
            (fun r => decide (r.d1.qText = d1 ∧ r.d2.qText = s))) := by
  intro q
  induction q with
  | nil => rfl
  | cons s qs ih =>
    rw [groupLeaves] at ih ⊢
    rw [List.filter_cons]
    by_cases hany : (rows.any
        (fun r => decide (r.d1.qText = d1 ∧ r.d2.qText = s))) = true
    · have hne : rows.filter
          (fun r => decide (r.d1.qText = d1 ∧ r.d2.qText = s)) ≠ [] := by
        obtain ⟨x, hx, hpx⟩ := List.any_eq_true.mp hany
        intro h
        exact absurd hpx (by simpa using List.filter_eq_nil_iff.mp h x hx)
      obtain ⟨r, rest, hfl⟩ := List.exists_cons_of_ne_nil hne
      have hside : Option.map (fun x => (s, x)) ((rows.filter
          (fun r => decide (r.d1.qText = d1 ∧ r.d2.qText = s))).head?)
          = some (s, r) := by
        rw [hfl]
        rfl
      rw [show (List.filterMap
            (fun s => Option.map (fun r => (s, r)) ((rows.filter
              (fun r => decide (r.d1.qText = d1 ∧ r.d2.qText = s))).head?))
            (s :: qs))
          = (s, r) :: List.filterMap
            (fun s => Option.map (fun r => (s, r)) ((rows.filter
              (fun r => decide (r.d1.qText = d1 ∧ r.d2.qText = s))).head?)) qs
          from List.filterMap_cons_some hside]
      rw [if_pos hany, List.map_cons, ih]
    · have hfl : rows.filter
          (fun r => decide (r.d1.qText = d1 ∧ r.d2.qText = s)) = [] := by
        rw [List.filter_eq_nil_iff]
        intro x hx hpx
        exact hany (List.any_eq_true.mpr ⟨x, hx, by simpa using hpx⟩)
      have hside : Option.map (fun x => (s, x)) ((rows.filter
          (fun r => decide (r.d1.qText = d1 ∧ r.d2.qText = s))).head?)
          = none := by
        rw [hfl]
        rfl
      rw [show (List.filterMap
            (fun s => Option.map (fun r => (s, r)) ((rows.filter
              (fun r => decide (r.d1.qText = d1 ∧ r.d2.qText = s))).head?))
            (s :: qs))
          = List.filterMap
            (fun s => Option.map (fun r => (s, r)) ((rows.filter
              (fun r => decide (r.d1.qText = d1 ∧ r.d2.qText = s))).head?)) qs
          from List.filterMap_cons_none hside]
      rw [if_neg hany]
      exact ih

/-- `finishVals` preserves the series of each point. -/
lemma finishVals_map_dim2 (dim1 : String) (nz : Bool) (posT negT : ℚ)
    (v : List Pt0) :
    (finishVals dim1 nz posT negT v).map Pt.dim2 = v.map Pt0.dim2 := by
  cases nz <;> simp [finishVals]

/-- C2 (amended): a missing series for a group yields *no* point — the
placeholder values computed in the dead branch are never pushed — so a
group's values list exactly the series present in that group, in
canonical order (and missing `(group, series)` pairs occupy no stacking
slot). -/
theorem missing_series_no_placeholder (dd : ℕ) (sd nz : Bool)
    (rows : List Row2d) :
    ∀ gr ∈ (initData2 dd sd nz rows).data,
      gr.values.map Pt.dim2
        = (initData2 dd sd nz rows).allDim2.filter
            (fun s => rows.any
              (fun r => decide (r.d1.qText = gr.dim1 ∧ r.d2.qText = s))) := by
  intro gr hgr
  rw [initData2_data] at hgr
  obtain ⟨grp, hgrp, rfl⟩ := List.mem_map.mp hgr
  obtain ⟨d1, hd1, rfl⟩ := List.mem_map.mp hgrp
  show (finishVals d1 nz _ _ _).map Pt.dim2 = _
  rw [finishVals_map_dim2]
  have hkeys := groupLeaves_map_fst rows d1 (seriesOrder rows)
  have hsub : ((groupLeaves rows (seriesOrder rows) d1).map Prod.fst).Sublist
      (seriesOrder rows) := by
    rw [hkeys]
    exact List.filter_sublist _
  have hwalk := buildValsGo_map_dim2 dd (seriesOrder rows)
    (groupLeaves rows (seriesOrder rows) d1) [] 0 0 hsub
  rw [List.map_nil, List.nil_append] at hwalk
  show (buildVals dd (seriesOrder rows) _).1.map Pt0.dim2 = _
  rw [buildVals, hwalk, hkeys]
  rfl

/-- C2 (counterexample to the claim as stated): for rows where group
`"A"` has series `"X"` only while the canonical series order also
contains `"Y"`, the model has *no* placeholder point for `("A", "Y")`:
group `"A"` has a single value and none of its points carries
`dim2 = "Y"`. -/
theorem missing_series_no_placeholder_cex :
    "Y" ∈ (initData2 2 false false
      [sampleRow "A" "X" 1, sampleRow "B" "X" 2, sampleRow "B" "Y" 3]).allDim2 ∧
    ∃ gr ∈ (initData2 2 false false
        [sampleRow "A" "X" 1, sampleRow "B" "X" 2, sampleRow "B" "Y" 3]).data,
      gr.dim1 = "A" ∧ gr.values.length = 1 ∧ ∀ p ∈ gr.values, p.dim2 ≠ "Y" := by
  constructor
  · simp +decide [initData2, seriesOrder, dim2Order, realEdges, obsEdges,
      obsEdgesStep, toposort, topLoop, visitF, visitListF, jsIndexOf,
      sampleRow]
  · simp +decide [initData2, seriesOrder, dim2Order, realEdges, obsEdges,
      obsEdgesStep, toposort, topLoop, visitF, visitListF, jsIndexOf,
      nestGroups, dim1Order, groupLeaves, build2Step, buildVals, buildValsGo,
      finishVals, sampleRow]

/-- Witness for C2 (amended) at the same concrete input. -/
theorem missing_series_no_placeholder_witness :
    ∃ gr ∈ (initData2 2 false false
        [sampleRow "A" "X" 1, sampleRow "B" "X" 2, sampleRow "B" "Y" 3]).data,
      gr.values.map Pt.dim2
        = (initData2 2 false false
            [sampleRow "A" "X" 1, sampleRow "B" "X" 2, sampleRow "B" "Y" 3]).allDim2.filter
            (fun s => [sampleRow "A" "X" 1, sampleRow "B" "X" 2,
                sampleRow "B" "Y" 3].any
              (fun r => decide (r.d1.qText = gr.dim1 ∧ r.d2.qText = s))) := by
  have hne : (initData2 2 false false
      [sampleRow "A" "X" 1, sampleRow "B" "X" 2, sampleRow "B" "Y" 3]).data ≠ [] := by
    simp +decide [initData2, seriesOrder, dim2Order, realEdges, obsEdges,
      obsEdgesStep, toposort, topLoop, visitF, visitListF, jsIndexOf,
      nestGroups, dim1Order, groupLeaves, build2Step, buildVals, buildValsGo,
      finishVals, sampleRow]
  obtain ⟨gr, hgr⟩ := List.exists_mem_of_ne_nil _ hne
  exact ⟨gr, hgr, missing_series_no_placeholder 2 false false _ gr hgr⟩

/-! ### Deltas (claim C3) -/

/-- The delta list built by the main loop: the previous group's values
are paired with the current group's by slot index, group after group. -/
lemma build2_foldl_deltas (dd : ℕ) (nz : Bool) (q : List String) :
    ∀ (gl : List (String × List (String × Row2d))) (acc : Acc2),
      (gl.foldl (build2Step dd true nz q) acc).deltas
        = acc.deltas ++ zipDeltas acc.prev
            (gl.map (fun grp => (mkGroup2 dd nz q grp).values)) := by
  intro gl
  induction gl with
  | nil => intro acc; simp [zipDeltas]
  | cons grp rest ih =>
    intro acc
    rw [List.foldl_cons, ih, List.map_cons]
    cases hprev : acc.prev with
    | none =>
      simp only [build2Step, hprev, zipDeltas]
      simp [mkGroup2]
    | some p =>
      simp only [build2Step, hprev, zipDeltas]
      simp [mkGroup2]

/-- `zipDeltas` from a present previous group is the consecutive-pair
description. -/
lemma zipDeltas_some : ∀ (vs : List (List Pt)) (p : List Pt),
    zipDeltas (some p) vs
      = (((p :: vs).zip vs).map (fun pc => groupDeltas pc.1 pc.2)).flatten := by
  intro vs
  induction vs with
  | nil => intro p; rfl
  | cons v rest ih =>
    intro p
    rw [zipDeltas, ih v]
    rfl

/-- `zipDeltas` from no previous group pairs each group with its
immediate predecessor. -/
lemma zipDeltas_none : ∀ vs : List (List Pt),
    zipDeltas none vs
      = ((vs.zip vs.tail).map (fun pc => groupDeltas pc.1 pc.2)).flatten := by
  intro vs
  cases vs with
  | nil => rfl
  | cons v rest =>
    rw [zipDeltas, zipDeltas_some rest v]
    rfl

/-- C3: with `showDeltas` enabled, the 2-dimensional path emits delta
records exactly between each group (after the first) and its immediate
predecessor, pairing entries by slot index within the two groups' values
arrays (`zip`: a record exists precisely when both indexed slots are
populated, i.e. the index is below both lengths; a pair with a missing
slot is skipped, never zero-filled), with
`delta = current.qNum - previous.qNum` (see `deltaPair`). -/
theorem deltas_adjacent_zip (dd : ℕ) (nz : Bool) (rows : List Row2d) :
    (initData2 dd true nz rows).deltas
      = adjacentDeltas (initData2 dd true nz rows).data := by
  have hdeltas : (initData2 dd true nz rows).deltas
      = zipDeltas none ((nestGroups rows (seriesOrder rows)).map
          (fun grp => (mkGroup2 dd nz (seriesOrder rows) grp).values)) := by
    show ((nestGroups rows (seriesOrder rows)).foldl
      (build2Step dd true nz (seriesOrder rows)) ⟨[], [], [], none⟩).deltas = _
    rw [build2_foldl_deltas]
    rfl
  rw [hdeltas, initData2_data, adjacentDeltas, zipDeltas_none]
  have hmap : ((nestGroups rows (seriesOrder rows)).map
        (mkGroup2 dd nz (seriesOrder rows))).map Group.values
      = (nestGroups rows (seriesOrder rows)).map
          (fun grp => (mkGroup2 dd nz (seriesOrder rows) grp).values) :=
    List.map_map _ _ _
  rw [← hmap]
  generalize ((nestGroups rows (seriesOrder rows)).map
    (mkGroup2 dd nz (seriesOrder rows))) = data
  rw [← List.map_tail, List.zip_map, List.map_map]
  rfl

/-! ### Normalization (claim C4) -/

/-- The normalized 2-dim path is the spec's pointwise rescaling of the
non-normalized one. -/
lemma mkGroup2_true_norm (dd : ℕ) (q : List String)
    (grp : String × List (String × Row2d)) :
    mkGroup2 dd true q grp = normGroup (mkGroup2 dd false q grp) := by
  show Group.mk _ _ _ _ = _
  rw [normGroup]
  show _ = Group.mk _ _ _ _
  rw [finishVals_true]
  rfl

lemma ptsPos_mem_nonneg {l : List Pt} {p : Pt} (h : p ∈ ptsPos l) :
    0 ≤ p.qNum := by
  have := List.of_mem_filter h
  simpa using this

lemma ptsNeg_mem_neg {l : List Pt} {p : Pt} (h : p ∈ ptsNeg l) :
    p.qNum < 0 := by
  have := List.of_mem_filter h
  simpa using this

lemma sumQ_ptsPos_nonneg (l : List Pt) : 0 ≤ sumQ (ptsPos l) := by
  apply List.sum_nonneg
  intro x hx
  obtain ⟨p, hp, rfl⟩ := List.mem_map.mp hx
  exact ptsPos_mem_nonneg hp

lemma listSum_nonpos : ∀ l : List ℚ, (∀ y ∈ l, y ≤ 0) → l.sum ≤ 0 := by
  intro l
  induction l with
  | nil => intro _; simp
  | cons a rest ih =>
    intro h
    rw [List.sum_cons]
    have h1 : a ≤ 0 := h a (List.mem_cons_self _ _)
    have h2 : rest.sum ≤ 0 := ih (fun y hy => h y (List.mem_cons_of_mem _ hy))
    linarith

lemma sum_le_mem_of_nonpos : ∀ (l : List ℚ) (x : ℚ), x ∈ l →
    (∀ y ∈ l, y ≤ 0) → l.sum ≤ x := by
  intro l
  induction l with
  | nil => intro x hx; simp at hx
  | cons a rest ih =>
    intro x hx hle
    rw [List.sum_cons]
    rcases List.mem_cons.mp hx with rfl | hx'
    · have : rest.sum ≤ 0 :=
        listSum_nonpos rest (fun y hy => hle y (List.mem_cons_of_mem _ hy))
      linarith
    · have h1 : rest.sum ≤ x := ih x hx' (fun y hy => hle y (List.mem_cons_of_mem _ hy))
      have h2 : a ≤ 0 := hle a (List.mem_cons_self _ _)
      linarith

lemma sumQ_ptsNeg_nonpos (l : List Pt) : sumQ (ptsNeg l) ≤ 0 := by
  apply listSum_nonpos
  intro x hx
  obtain ⟨p, hp, rfl⟩ := List.mem_map.mp hx
  exact le_of_lt (ptsNeg_mem_neg hp)

/-- The whole negative stack sits below any single negative value. -/
lemma sumQ_ptsNeg_le_mem (l : List Pt) (p : Pt) (hp : p ∈ l)
    (hneg : p.qNum < 0) : sumQ (ptsNeg l) ≤ p.qNum := by
  apply sum_le_mem_of_nonpos
  · exact List.mem_map_of_mem _ (List.mem_filter.mpr ⟨hp, by simpa using hneg⟩)
  · intro y hy
    obtain ⟨p', hp', rfl⟩ := List.mem_map.mp hy
    exact le_of_lt (ptsNeg_mem_neg hp')

/-- `normPt` does not change the sign class of a point, given the sign
facts the stack invariant provides (`0 ≤ P`; negative values dominate
`N`). -/
lemma normPt_sign_iff (P N : ℚ) (hP : 0 ≤ P) (p : Pt)
    (hNp : p.qNum < 0 → N ≤ p.qNum) :
    (0 ≤ (normPt P N p).qNum ↔ 0 ≤ p.qNum) := by
  show (0 ≤ p.qNum / (if p.qNum < 0 then -N else P) ↔ _)
  by_cases h : p.qNum < 0
  · rw [if_pos h]
    have hN : N < 0 := lt_of_le_of_lt (hNp h) h
    constructor
    · intro habs
      exact absurd habs
        (not_le.mpr (div_neg_of_neg_of_pos h (by linarith)))
    · intro habs
      exact absurd h (not_lt.mpr habs)
  · rw [if_neg h]
    have := div_nonneg (not_lt.mp h) hP
    constructor
    · intro _; exact not_lt.mp h
    · intro _; exact this

/-- Filtering the positive stack commutes with normalization. -/
lemma ptsPos_map_norm (l : List Pt) (P N : ℚ) (hP : 0 ≤ P)
    (hNl : ∀ p ∈ l, p.qNum < 0 → N ≤ p.qNum) :
    ptsPos (l.map (normPt P N)) = (ptsPos l).map (normPt P N) := by
  rw [ptsPos, List.filter_map]
  congr 1
  apply List.filter_congr
  intro p hp
  simp only [Function.comp_apply, decide_eq_decide]
  exact normPt_sign_iff P N hP p (hNl p hp)

/-- Filtering the negative stack commutes with normalization. -/
lemma ptsNeg_map_norm (l : List Pt) (P N : ℚ) (hP : 0 ≤ P)
    (hNl : ∀ p ∈ l, p.qNum < 0 → N ≤ p.qNum) :
    ptsNeg (l.map (normPt P N)) = (ptsNeg l).map (normPt P N) := by
  rw [ptsNeg, List.filter_map]
  congr 1
  apply List.filter_congr
  intro p hp
  simp only [Function.comp_apply, decide_eq_decide]
  rw [← not_le, ← not_le]
  exact not_congr (normPt_sign_iff P N hP p (hNl p hp))

/-- The matching-sign sums of a normalized group have absolute value `1`
whenever the corresponding divisor (stack top) is nonzero. -/
lemma normGroup_abs_sums (gr0 : Group)
    (hpos : sumQ (ptsPos gr0.values) = gr0.offsetPos)
    (hneg : sumQ (ptsNeg gr0.values) = gr0.offsetNeg) :
    (gr0.offsetPos ≠ 0 → |sumQ (ptsPos (normGroup gr0).values)| = 1) ∧
    (gr0.offsetNeg ≠ 0 → |sumQ (ptsNeg (normGroup gr0).values)| = 1) := by
  have hP0 : 0 ≤ gr0.offsetPos := hpos ▸ sumQ_ptsPos_nonneg _
  have hN0 : gr0.offsetNeg ≤ 0 := hneg ▸ sumQ_ptsNeg_nonpos _
  have hNl : ∀ p ∈ gr0.values, p.qNum < 0 → gr0.offsetNeg ≤ p.qNum :=
    fun p hp h => hneg ▸ sumQ_ptsNeg_le_mem _ p hp h
  constructor
  · intro hPne
    show |sumQ (ptsPos (gr0.values.map (normPt gr0.offsetPos gr0.offsetNeg)))| = 1
    rw [ptsPos_map_norm _ _ _ hP0 hNl]
    have hsum : sumQ ((ptsPos gr0.values).map (normPt gr0.offsetPos gr0.offsetNeg))
        = sumQ (ptsPos gr0.values) * gr0.offsetPos⁻¹ := by
      rw [sumQ, List.map_map]
      have hcong : (ptsPos gr0.values).map (Pt.qNum ∘ normPt gr0.offsetPos gr0.offsetNeg)
          = (ptsPos gr0.values).map (fun p => p.qNum * gr0.offsetPos⁻¹) := by
        apply List.map_congr_left
        intro p hp
        have h0 : 0 ≤ p.qNum := ptsPos_mem_nonneg hp
        show p.qNum / (if p.qNum < 0 then -gr0.offsetNeg else gr0.offsetPos) = _
        rw [if_neg (not_lt.mpr h0), div_eq_mul_inv]
      rw [hcong, List.sum_map_mul_right]
      rfl
    rw [hsum, hpos, mul_inv_cancel₀ hPne]
    exact abs_one
  · intro hNne
    have hNneg : gr0.offsetNeg < 0 := lt_of_le_of_ne hN0 hNne
    show |sumQ (ptsNeg (gr0.values.map (normPt gr0.offsetPos gr0.offsetNeg)))| = 1
    rw [ptsNeg_map_norm _ _ _ hP0 hNl]
    have hsum : sumQ ((ptsNeg gr0.values).map (normPt gr0.offsetPos gr0.offsetNeg))
        = sumQ (ptsNeg gr0.values) * (-gr0.offsetNeg)⁻¹ := by
      rw [sumQ, List.map_map]
      have hcong : (ptsNeg gr0.values).map (Pt.qNum ∘ normPt gr0.offsetPos gr0.offsetNeg)
          = (ptsNeg gr0.values).map (fun p => p.qNum * (-gr0.offsetNeg)⁻¹) := by
        apply List.map_congr_left
        intro p hp
        have h0 : p.qNum < 0 := ptsNeg_mem_neg hp
        show p.qNum / (if p.qNum < 0 then -gr0.offsetNeg else gr0.offsetPos) = _
        rw [if_pos h0, div_eq_mul_inv]
      rw [hcong, List.sum_map_mul_right]
      rfl
    rw [hsum, hneg]
    have : gr0.offsetNeg * (-gr0.offsetNeg)⁻¹ = -1 := by
      field_simp
    rw [this]
    norm_num

/-- The percent text parses back to the normalized value within `0.001`
(i.e. within 0.1 percentage point; half that, in fact). -/
lemma pctParse_close (x : ℚ) : |pctParse x - x| ≤ 1 / 1000 := by
  have h : pctParse x - x = (((round (x * 1000) : ℤ) : ℚ) - x * 1000) / 1000 := by
    rw [pctParse]
    ring
  rw [h, abs_div]
  have h1000 : |(1000 : ℚ)| = 1000 := by norm_num
  rw [h1000]
  have hr : |((round (x * 1000) : ℤ) : ℚ) - x * 1000| ≤ 1 / 2 := by
    rw [abs_sub_comm]
    exact abs_sub_round (x * 1000)
  linarith

lemma normPt_qTextPct (P N : ℚ) (p : Pt) :
    (normPt P N p).qTextPct = some (pctParse ((normPt P N p).qNum)) := rfl

/-- C4 (amended): in the normalized 2-dimensional path, every point's
value and offset are those of the un-normalized model divided by the
matching-sign stack top of its own group (`normGroup`/`normPt`, negated
for the negative side), with the one-decimal percent text attached; for
every group whose positive (resp. negative) stack top is nonzero, the
absolute value of the sum of the normalized values of that sign is
exactly `1` (hence within any floating tolerance), and every percent
text parses back to the normalized value within `0.001`.  (The nonzero
hypotheses are necessary: see the counterexample for a group whose
positive stack top is `0`.) -/
theorem normalization_spec (dd : ℕ) (sd : Bool) (rows : List Row2d) :
    (initData2 dd sd true rows).data
        = (initData2 dd sd false rows).data.map normGroup ∧
    ∀ gr ∈ (initData2 dd sd true rows).data,
      (gr.offsetPos ≠ 0 → |sumQ (ptsPos gr.values)| = 1) ∧
      (gr.offsetNeg ≠ 0 → |sumQ (ptsNeg gr.values)| = 1) ∧
      ∀ p ∈ gr.values, ∀ y, p.qTextPct = some y → |y - p.qNum| ≤ 1 / 1000 := by
  have hdata : (initData2 dd sd true rows).data
      = (initData2 dd sd false rows).data.map normGroup := by
    rw [initData2_data, initData2_data, List.map_map]
    apply List.map_congr_left
    intro grp _
    exact mkGroup2_true_norm dd (seriesOrder rows) grp
  refine ⟨hdata, ?_⟩
  intro gr hgr
  rw [initData2_data] at hgr
  obtain ⟨grp, hgrp, rfl⟩ := List.mem_map.mp hgr
  rw [mkGroup2_true_norm]
  obtain ⟨h1, h2, _⟩ := mkGroup2_false_spec dd (seriesOrder rows) grp
  have habs := normGroup_abs_sums _ h1 h2
  refine ⟨habs.1, habs.2, ?_⟩
  intro p hp y hy
  obtain ⟨p0, _, rfl⟩ := List.mem_map.mp hp
  rw [normPt_qTextPct] at hy
  have hy' := Option.some.inj hy
  rw [← hy']
  exact pctParse_close _

/-- C4 (counterexample to the claim as stated): in a normalized group
whose non-negative values are all `0` (positive stack top `0`), the
normalized matching-sign sum is not `1` for the zero-valued point's
sign: JS divides `0/0` (NaN); in the `ℚ` model the quotient is `0`.
Either way the sum differs from `1.0` beyond any tolerance. -/
theorem normalization_spec_cex :
    ∃ gr ∈ (initData2 2 false true
        [sampleRow "A" "X" 0, sampleRow "A" "Y" (-5)]).data,
      ∃ p ∈ gr.values, 0 ≤ p.qNum ∧ |sumQ (ptsPos gr.values)| ≠ 1 := by
  simp +decide [initData2, seriesOrder, dim2Order, realEdges, obsEdges,
    obsEdgesStep, toposort, topLoop, visitF, visitListF, jsIndexOf,
    nestGroups, dim1Order, groupLeaves, build2Step, buildVals, buildValsGo,
    finishVals, pctParse, sumQ, ptsPos, sampleRow]

/-- Witness for C4 (amended) at a concrete mixed-sign input: the data
relation and, for the concrete group (nonzero stack tops), both
unit sums. -/
theorem normalization_spec_witness :
    ((initData2 2 false true [sampleRow "A" "X" 100, sampleRow "A" "Y" (-50)]).data
      = (initData2 2 false false
          [sampleRow "A" "X" 100, sampleRow "A" "Y" (-50)]).data.map normGroup) ∧
    |sumQ (ptsPos (⟨"A", 100, -50,
      [⟨"A", "X", 1, "v", some 1, [1, 2], 0⟩,
       ⟨"A", "Y", -1, "v", some (-1), [1, 2], 0⟩]⟩ : Group).values)| = 1 ∧
    |sumQ (ptsNeg (⟨"A", 100, -50,
      [⟨"A", "X", 1, "v", some 1, [1, 2], 0⟩,
       ⟨"A", "Y", -1, "v", some (-1), [1, 2], 0⟩]⟩ : Group).values)| = 1 := by
  have hd : (initData2 2 false true
      [sampleRow "A" "X" 100, sampleRow "A" "Y" (-50)]).data
      = [⟨"A", 100, -50,
          [⟨"A", "X", 1, "v", some 1, [1, 2], 0⟩,
           ⟨"A", "Y", -1, "v", some (-1), [1, 2], 0⟩]⟩] := by
    simp +decide [initData2, seriesOrder, dim2Order, realEdges, obsEdges,
      obsEdgesStep, toposort, topLoop, visitF, visitListF, jsIndexOf,
      nestGroups, dim1Order, groupLeaves, build2Step, buildVals, buildValsGo,
      finishVals, pctParse, sampleRow]
    norm_num [Group.mk.injEq, Pt.mk.injEq, round_eq]
  have hmem : (⟨"A", 100, -50,
      [⟨"A", "X", 1, "v", some 1, [1, 2], 0⟩,
       ⟨"A", "Y", -1, "v", some (-1), [1, 2], 0⟩]⟩ : Group)
      ∈ (initData2 2 false true
        [sampleRow "A" "X" 100, sampleRow "A" "Y" (-50)]).data := by
    rw [hd]
    exact List.mem_singleton_self _
  have h := (normalization_spec 2 false
    [sampleRow "A" "X" 100, sampleRow "A" "Y" (-50)]).2 _ hmem
  exact ⟨(normalization_spec 2 false
      [sampleRow "A" "X" 100, sampleRow "A" "Y" (-50)]).1,
    h.1 (by norm_num), h.2.1 (by norm_num)⟩

/-! ### Topological sort: soundness of `visit` (claims C5, C10) -/

lemma validSet_card (nodes : List String) :
    (validSet nodes).card = nodes.length := by
  rw [validSet, Finset.card_map, Finset.card_range]

lemma mem_validSet {nodes : List String} {i : ℤ} :
    i ∈ validSet nodes ↔ ∃ k : ℕ, k < nodes.length ∧ (k : ℤ) = i := by
  rw [validSet]
  simp [Finset.mem_map]

lemma marked_card_le {nodes : List String} {st : TState}
    (h : st.marked ⊆ validSet nodes) : st.marked.card ≤ nodes.length :=
  validSet_card nodes ▸ Finset.card_le_card h

/-- Looking up a present node: the JS `nodes.indexOf(child)` is a valid
index denoting the node itself. -/
lemma jsIndexOf_spec {nodes : List String} {a : String} (h : a ∈ nodes) :
    idxVal nodes (jsIndexOf nodes a) = a ∧ jsIndexOf nodes a ∈ validSet nodes := by
  have hlt : List.indexOf a nodes < nodes.length := List.indexOf_lt_length.mpr h
  constructor
  · rw [jsIndexOf, if_pos h, idxVal]
    rw [Int.toNat_ofNat]
    rw [List.getD_eq_get?, List.get?_eq_get hlt]
    exact List.indexOf_get hlt
  · rw [jsIndexOf, if_pos h]
    exact mem_validSet.mpr ⟨List.indexOf a nodes, hlt, rfl⟩

lemma TInv_init (nodes : List String) (edges : List (String × String)) :
    TInv nodes edges [] ⟨∅, []⟩ := by
  refine ⟨Finset.empty_subset _, ?_, ?_⟩
  · rfl
  · intro e _ t ht
    simp at ht

/-- Marking a fresh valid index adds its node to the visited multiset. -/
lemma markedVals_insert (nodes : List String) (st : TState) (i : ℤ)
    (hni : i ∉ st.marked) :
    markedVals nodes ⟨insert i st.marked, st.comp⟩
      = idxVal nodes i ::ₘ markedVals nodes st := by
  show (insert i st.marked).val.map (idxVal nodes) = _
  rw [Finset.insert_val, Multiset.ndinsert_of_not_mem hni, Multiset.map_cons]
  rfl

/-- Extending the completion order preserves its edge-ordering if every
edge out of the appended node already has its target completed. -/
lemma compOrdered_append (edges : List (String × String)) (comp : List String)
    (node : String) (hord : compOrdered edges comp)
    (hnode : ∀ e ∈ edges, e.1 = node → e.2 ∈ comp) :
    compOrdered edges (comp ++ [node]) := by
  intro e he t ht hget
  rcases lt_or_ge t comp.length with hlt | hge
  · have hget' : comp.get ⟨t, hlt⟩ = e.1 := by
      rw [← hget]
      exact (List.get_append t hlt).symm
    obtain ⟨s, hs, hst, hsval⟩ := hord e he t hlt hget'
    refine ⟨s, by simp only [List.length_append]; omega, hst, ?_⟩
    rw [← hsval]
    exact List.get_append s hs
  · have hteq : t = comp.length := by
      simp only [List.length_append, List.length_singleton] at ht
      omega
    have hnodeval : (comp ++ [node]).get ⟨t, ht⟩ = node := by
      subst hteq
      rw [List.get_append_right] <;> simp
    have he1 : e.1 = node := by rw [← hget, hnodeval]
    obtain ⟨s, hs⟩ := List.mem_iff_get.mp (hnode e he he1)
    have hs2 := s.isLt
    refine ⟨s.1, by simp only [List.length_append]; omega, by omega, ?_⟩
    rw [show (⟨s.1, by simp only [List.length_append]; omega⟩ : Fin (comp ++ [node]).length)
        = ⟨s.1, by have := s.isLt; simp only [List.length_append]; omega⟩ from rfl]
    rw [List.get_append s.1 s.2]
    convert hs

lemma multiset_rotate1 (c p : List String) (node : String) :
    node ::ₘ ((c : Multiset String) + ↑p) = ↑c + ↑(p ++ [node]) := by
  have h1 : (↑(p ++ [node]) : Multiset String) = ↑p + ↑[node] := by
    rw [← Multiset.coe_add]
  rw [h1, Multiset.coe_singleton, ← Multiset.singleton_add]
  abel

lemma multiset_rotate2 (c p : List String) (node : String) :
    (c : Multiset String) + ↑(p ++ [node]) = ↑(c ++ [node]) + ↑p := by
  have h1 : (↑(p ++ [node]) : Multiset String) = ↑p + ↑[node] := by
    rw [← Multiset.coe_add]
  have h2 : (↑(c ++ [node]) : Multiset String) = ↑c + ↑[node] := by
    rw [← Multiset.coe_add]
  rw [h1, h2]
  abel

/-- Soundness of `visit`/its edge loop on successful runs: the invariant
is preserved (with the caller's predecessor chain), visited/completed
only grow, the visited node ends up completed and its index marked, and
every processed edge target ends up completed. -/
lemma visit_sound (nodes : List String) (edges : List (String × String))
    (HT : ∀ e ∈ edges, e.2 ∈ nodes) : ∀ fuel : ℕ,
    (∀ node i preds st st', node = idxVal nodes i → i ∈ validSet nodes →
      TInv nodes edges preds st →
      visitF nodes edges fuel node i preds st = some (.ok st') →
      TInv nodes edges preds st' ∧ st.marked ⊆ st'.marked ∧
      st.comp <+: st'.comp ∧ node ∈ st'.comp ∧ i ∈ st'.marked) ∧
    (∀ l preds st st', (∀ e ∈ l, e ∈ edges) →
      TInv nodes edges preds st →
      visitListF nodes edges fuel l preds st = some (.ok st') →
      TInv nodes edges preds st' ∧ st.marked ⊆ st'.marked ∧
      st.comp <+: st'.comp ∧ ∀ e ∈ l, e.2 ∈ st'.comp) := by
  intro fuel
  induction fuel with
  | zero =>
    constructor
    · intro node i preds st st' _ _ _ hrun
      rw [visitF] at hrun
      exact absurd hrun (by simp)
    · intro l preds st st' hl hinv hrun
      match l with
      | [] =>
        rw [visitListF] at hrun
        obtain rfl : st = st' := by simpa using hrun
        exact ⟨hinv, le_refl _, List.prefix_refl _, fun e he => absurd he (List.not_mem_nil e)⟩
      | e :: rest =>
        rw [visitListF, visitF] at hrun
        simp at hrun
  | succ f ih =>
    have specF : ∀ node i preds st st', node = idxVal nodes i → i ∈ validSet nodes →
        TInv nodes edges preds st →
        visitF nodes edges (f + 1) node i preds st = some (.ok st') →
        TInv nodes edges preds st' ∧ st.marked ⊆ st'.marked ∧
        st.comp <+: st'.comp ∧ node ∈ st'.comp ∧ i ∈ st'.marked := by
      intro node i preds st st' hnode hival hinv hrun
      rw [visitF] at hrun
      simp only [] at hrun
      by_cases hpred : node ∈ preds
      · rw [if_pos hpred] at hrun
        simp at hrun
      · rw [if_neg hpred] at hrun
        by_cases hmark : i ∈ st.marked
        · rw [if_pos hmark] at hrun
          obtain rfl : st = st' := by simpa using hrun
          refine ⟨hinv, le_refl _, List.prefix_refl _, ?_, hmark⟩
          have hmem : node ∈ markedVals nodes st := by
            rw [markedVals]
            exact Multiset.mem_map.mpr ⟨i, hmark, hnode.symm⟩
          rw [hinv.2.1] at hmem
          rcases Multiset.mem_add.mp hmem with h | h
          · exact h
          · exact absurd h hpred
        · rw [if_neg hmark] at hrun
          match hv : visitListF nodes edges f
              ((edges.filter (fun e => e.1 = node)).reverse) (preds ++ [node])
              ⟨insert i st.marked, st.comp⟩ with
          | none =>
            rw [hv] at hrun
            simp at hrun
          | some (.error er) =>
            rw [hv] at hrun
            simp at hrun
          | some (.ok st2) =>
            rw [hv] at hrun
            obtain rfl : (⟨st2.marked, st2.comp ++ [node]⟩ : TState) = st' := by
              simpa using hrun
            have hinner : TInv nodes edges (preds ++ [node])
                ⟨insert i st.marked, st.comp⟩ := by
              refine ⟨Finset.insert_subset hival hinv.1, ?_, hinv.2.2⟩
              rw [markedVals_insert nodes st i hmark, hinv.2.1, ← hnode]
              exact multiset_rotate1 st.comp preds node
            have htargets : ∀ e ∈ (edges.filter (fun e => e.1 = node)).reverse,
                e ∈ edges := by
              intro e he
              exact List.mem_of_mem_filter (List.mem_reverse.mp he)
            obtain ⟨hinv2, hsub2, hpre2, hdone2⟩ :=
              ih.2 _ (preds ++ [node]) _ st2 htargets hinner hv
            refine ⟨?_, ?_, ?_, ?_, ?_⟩
            · refine ⟨hinv2.1, ?_, ?_⟩
              · show markedVals nodes ⟨st2.marked, st2.comp⟩ = _
                have : markedVals nodes ⟨st2.marked, st2.comp⟩
                    = markedVals nodes st2 := rfl
                rw [this, hinv2.2.1]
                exact multiset_rotate2 st2.comp preds node
              · show compOrdered edges (st2.comp ++ [node])
                refine compOrdered_append edges st2.comp node hinv2.2.2 ?_
                intro e he he1
                refine hdone2 e ?_
                rw [List.mem_reverse]
                exact List.mem_filter.mpr ⟨he, by simp [he1]⟩
            · exact le_trans (Finset.subset_insert i st.marked) hsub2
            · exact List.IsPrefix.trans hpre2 (List.prefix_append _ _)
            · exact List.mem_append_right _ (List.mem_singleton_self node)
            · exact hsub2 (Finset.mem_insert_self i st.marked)
    refine ⟨specF, ?_⟩
    intro l
    induction l with
    | nil =>
      intro preds st st' _ hinv hrun
      rw [visitListF] at hrun
      obtain rfl : st = st' := by simpa using hrun
      exact ⟨hinv, le_refl _, List.prefix_refl _,
        fun e he => absurd he (List.not_mem_nil e)⟩
    | cons e rest ihl =>
      intro preds st st' hl hinv hrun
      rw [visitListF] at hrun
      match hv : visitF nodes edges (f + 1) e.2 (jsIndexOf nodes e.2) preds st with
      | none =>
        rw [hv] at hrun
        simp at hrun
      | some (.error er) =>
        rw [hv] at hrun
        simp at hrun
      | some (.ok st1) =>
        rw [hv] at hrun
        have hrun' : visitListF nodes edges (f + 1) rest preds st1
            = some (.ok st') := by simpa using hrun
        have he2 : e.2 ∈ nodes := HT e (hl e (List.mem_cons_self e rest))
        obtain ⟨hidx1, hidx2⟩ := jsIndexOf_spec he2
        obtain ⟨hinv1, hsub1, hpre1, hcomp1, _⟩ :=
          specF e.2 (jsIndexOf nodes e.2) preds st st1 hidx1.symm hidx2 hinv hv
        obtain ⟨hinv', hsub', hpre', hdone'⟩ :=
          ihl preds st1 st' (fun e' he' => hl e' (List.mem_cons_of_mem e he'))
            hinv1 hrun'
        refine ⟨hinv', le_trans hsub1 hsub', List.IsPrefix.trans hpre1 hpre', ?_⟩
        intro e' he'
        rcases List.mem_cons.mp he' with rfl | he''
        · exact (List.IsPrefix.sublist hpre').mem hcomp1
        · exact hdone' e' he''

/-- Fuel sufficiency: with fuel exceeding the number of unvisited valid
indices, `visit` cannot run out (every nested call first marks a fresh
index). -/
lemma visit_adequate (nodes : List String) (edges : List (String × String))
    (HT : ∀ e ∈ edges, e.2 ∈ nodes) : ∀ fuel : ℕ,
    (∀ node i preds st, node = idxVal nodes i → i ∈ validSet nodes →
      TInv nodes edges preds st →
      nodes.length + 1 ≤ fuel + st.marked.card →
      visitF nodes edges fuel node i preds st ≠ none) ∧
    (∀ l preds st, (∀ e ∈ l, e ∈ edges) →
      TInv nodes edges preds st →
      nodes.length + 1 ≤ fuel + st.marked.card →
      visitListF nodes edges fuel l preds st ≠ none) := by
  intro fuel
  induction fuel with
  | zero =>
    constructor
    · intro node i preds st _ _ hinv hfuel
      have := marked_card_le hinv.1
      omega
    · intro l preds st _ hinv hfuel
      have := marked_card_le hinv.1
      omega
  | succ f ih =>
    have adF : ∀ node i preds st, node = idxVal nodes i → i ∈ validSet nodes →
        TInv nodes edges preds st →
        nodes.length + 1 ≤ (f + 1) + st.marked.card →
        visitF nodes edges (f + 1) node i preds st ≠ none := by
      intro node i preds st hnode hival hinv hfuel
      rw [visitF]
      simp only []
      by_cases hpred : node ∈ preds
      · rw [if_pos hpred]
        simp
      · rw [if_neg hpred]
        by_cases hmark : i ∈ st.marked
        · rw [if_pos hmark]
          simp
        · rw [if_neg hmark]
          have hinner : TInv nodes edges (preds ++ [node])
              ⟨insert i st.marked, st.comp⟩ := by
            refine ⟨Finset.insert_subset hival hinv.1, ?_, hinv.2.2⟩
            rw [markedVals_insert nodes st i hmark, hinv.2.1, ← hnode]
            exact multiset_rotate1 st.comp preds node
          have hcard : (insert i st.marked).card = st.marked.card + 1 :=
            Finset.card_insert_of_not_mem hmark
          have htargets : ∀ e ∈ (edges.filter (fun e => e.1 = node)).reverse,
              e ∈ edges :=
            fun e he => List.mem_of_mem_filter (List.mem_reverse.mp he)
          have hrec := ih.2 ((edges.filter (fun e => e.1 = node)).reverse)
            (preds ++ [node]) ⟨insert i st.marked, st.comp⟩ htargets hinner
            (by
              show nodes.length + 1 ≤ f + (insert i st.marked).card
              rw [hcard]
              omega)
          match hv : visitListF nodes edges f
              ((edges.filter (fun e => e.1 = node)).reverse) (preds ++ [node])
              ⟨insert i st.marked, st.comp⟩ with
          | none => exact absurd hv hrec
          | some (.error er) => simp
          | some (.ok st2) => simp
    refine ⟨adF, ?_⟩
    intro l
    induction l with
    | nil =>
      intro preds st _ _ _
      rw [visitListF]
      simp
    | cons e rest ihl =>
      intro preds st hl hinv hfuel
      rw [visitListF]
      have he2 : e.2 ∈ nodes := HT e (hl e (List.mem_cons_self e rest))
      obtain ⟨hidx1, hidx2⟩ := jsIndexOf_spec he2
      have hF := adF e.2 (jsIndexOf nodes e.2) preds st hidx1.symm hidx2 hinv hfuel
      match hv : visitF nodes edges (f + 1) e.2 (jsIndexOf nodes e.2) preds st with
      | none => exact absurd hv hF
      | some (.error er) => simp
      | some (.ok st1) =>
        obtain ⟨hinv1, hsub1, _, _, _⟩ :=
          (visit_sound nodes edges HT (f + 1)).1 e.2 (jsIndexOf nodes e.2)
            preds st st1 hidx1.symm hidx2 hinv hv
        have hcard1 : st.marked.card ≤ st1.marked.card :=
          Finset.card_le_card hsub1
        exact ihl preds st1 (fun e' he' => hl e' (List.mem_cons_of_mem e he'))
          hinv1 (by omega)

/-! ### Topological sort: a thrown error means a cycle -/

/-- From any member of a chain there is a path to the chain's last
element. -/
lemma chain'_reflTransGen_getLast {R : String → String → Prop} :
    ∀ (l : List String) (hl : l ≠ []), List.Chain' R l → ∀ x ∈ l,
      Relation.ReflTransGen R x (l.getLast hl) := by
  intro l
  induction l with
  | nil => intro hl; exact absurd rfl hl
  | cons a t ih =>
    intro hl hch x hx
    cases t with
    | nil =>
      rcases List.mem_cons.mp hx with rfl | h
      · exact Relation.ReflTransGen.refl
      · exact absurd h (List.not_mem_nil x)
    | cons b t2 =>
      have hch2 : R a b ∧ List.Chain' R (b :: t2) := List.chain'_cons.mp hch
      have hlast : (a :: b :: t2).getLast hl = (b :: t2).getLast (by simp) :=
        List.getLast_cons (by simp)
      rcases List.mem_cons.mp hx with rfl | h
      · rw [hlast]
        exact Relation.ReflTransGen.head hch2.1
          (ih (by simp) hch2.2 b (List.mem_cons_self b t2))
      · rw [hlast]
        exact ih (by simp) hch2.2 x h

/-- A thrown `Cyclic dependency` error really means the edges contain a
directed cycle: the predecessor chain is an edge path, and the check
`predecessors.indexOf(node) >= 0` fires exactly when the current node
closes it. -/
lemma visit_error (nodes : List String) (edges : List (String × String)) :
    ∀ fuel : ℕ,
    (∀ node i preds st msg, List.Chain' (edgeRel edges) preds →
      (preds = [] ∨ ∃ h : preds ≠ [], edgeRel edges (preds.getLast h) node) →
      visitF nodes edges fuel node i preds st = some (.error msg) →
      hasCycle edges) ∧
    (∀ l preds st msg, List.Chain' (edgeRel edges) preds →
      (∀ e ∈ l, e ∈ edges ∧ ∃ h : preds ≠ [], preds.getLast h = e.1) →
      visitListF nodes edges fuel l preds st = some (.error msg) →
      hasCycle edges) := by
  intro fuel
  induction fuel with
  | zero =>
    constructor
    · intro node i preds st msg _ _ hrun
      rw [visitF] at hrun
      simp at hrun
    · intro l preds st msg _ _ hrun
      match l with
      | [] =>
        rw [visitListF] at hrun
        simp at hrun
      | e :: rest =>
        rw [visitListF, visitF] at hrun
        simp at hrun
  | succ f ih =>
    have errF : ∀ node i preds st msg, List.Chain' (edgeRel edges) preds →
        (preds = [] ∨ ∃ h : preds ≠ [], edgeRel edges (preds.getLast h) node) →
        visitF nodes edges (f + 1) node i preds st = some (.error msg) →
        hasCycle edges := by
      intro node i preds st msg hch hpre hrun
      rw [visitF] at hrun
      simp only [] at hrun
      by_cases hpred : node ∈ preds
      · have hne : preds ≠ [] := List.ne_nil_of_mem hpred
        rcases hpre with h0 | ⟨h, hedge⟩
        · exact absurd h0 hne
        · refine ⟨node, Relation.TransGen.tail' ?_ hedge⟩
          exact chain'_reflTransGen_getLast preds h hch node hpred
      · rw [if_neg hpred] at hrun
        by_cases hmark : i ∈ st.marked
        · rw [if_pos hmark] at hrun
          simp at hrun
        · rw [if_neg hmark] at hrun
          match hv : visitListF nodes edges f
              ((edges.filter (fun e => e.1 = node)).reverse) (preds ++ [node])
              ⟨insert i st.marked, st.comp⟩ with
          | none =>
            rw [hv] at hrun
            simp at hrun
          | some (.ok st2) =>
            rw [hv] at hrun
            simp at hrun
          | some (.error er) =>
            have hch' : List.Chain' (edgeRel edges) (preds ++ [node]) := by
              rw [List.chain'_append]
              refine ⟨hch, List.chain'_singleton node, ?_⟩
              intro x hx y hy
              rcases hpre with h0 | ⟨h, hedge⟩
              · subst h0
                simp at hx
              · have hx' : x = preds.getLast h := by
                  rw [List.getLast?_eq_getLast preds h] at hx
                  exact (Option.some.inj hx).symm
                have hy' : y = node := by
                  simp at hy
                  exact hy.symm
                rw [hx', hy']
                exact hedge
            have hlpre : ∀ e ∈ (edges.filter (fun e => e.1 = node)).reverse,
                e ∈ edges ∧ ∃ hne : preds ++ [node] ≠ [],
                  (preds ++ [node]).getLast hne = e.1 := by
              intro e he
              have hef := List.mem_reverse.mp he
              have he1 : e.1 = node := by
                have := List.of_mem_filter hef
                simpa using this
              refine ⟨List.mem_of_mem_filter hef, by simp, ?_⟩
              rw [List.getLast_concat, he1]
            exact ih.2 _ (preds ++ [node]) ⟨insert i st.marked, st.comp⟩ er
              hch' hlpre hv
    refine ⟨errF, ?_⟩
    intro l
    induction l with
    | nil =>
      intro preds st msg _ _ hrun
      rw [visitListF] at hrun
      simp at hrun
    | cons e rest ihl =>
      intro preds st msg hch hlpre hrun
      rw [visitListF] at hrun
      match hv : visitF nodes edges (f + 1) e.2 (jsIndexOf nodes e.2) preds st with
      | none =>
        rw [hv] at hrun
        simp at hrun
      | some (.error er) =>
        obtain ⟨hee, hne, hlast⟩ := hlpre e (List.mem_cons_self e rest)
        refine errF e.2 (jsIndexOf nodes e.2) preds st er hch (Or.inr ⟨hne, ?_⟩) hv
        rw [hlast]
        show (e.1, e.2) ∈ edges
        exact hee
      | some (.ok st1) =>
        rw [hv] at hrun
        have hrun' : visitListF nodes edges (f + 1) rest preds st1
            = some (.error msg) := by simpa using hrun
        exact ihl preds st1 msg hch
          (fun e' he' => hlpre e' (List.mem_cons_of_mem e he')) hrun'

/-! ### Topological sort: the top-level loop and `toposort` itself -/

lemma topLoop_sound (nodes : List String) (edges : List (String × String))
    (HT : ∀ e ∈ edges, e.2 ∈ nodes) :
    ∀ (is : List ℕ) (st st' : TState), (∀ i ∈ is, i < nodes.length) →
      TInv nodes edges [] st → topLoop nodes edges is st = some (.ok st') →
      TInv nodes edges [] st' ∧ st.marked ⊆ st'.marked ∧
        ∀ i ∈ is, (i : ℤ) ∈ st'.marked := by
  intro is
  induction is with
  | nil =>
    intro st st' _ hinv hrun
    rw [topLoop] at hrun
    obtain rfl : st = st' := by simpa using hrun
    exact ⟨hinv, le_refl _, fun i hi => absurd hi (List.not_mem_nil i)⟩
  | cons i rest ih =>
    intro st st' his hinv hrun
    rw [topLoop] at hrun
    by_cases hm : (i : ℤ) ∈ st.marked
    · rw [if_pos hm] at hrun
      obtain ⟨hinv', hsub', hmem'⟩ := ih st st'
        (fun j hj => his j (List.mem_cons_of_mem i hj)) hinv hrun
      refine ⟨hinv', hsub', ?_⟩
      intro j hj
      rcases List.mem_cons.mp hj with rfl | hj'
      · exact hsub' hm
      · exact hmem' j hj'
    · rw [if_neg hm] at hrun
      have hi : i < nodes.length := his i (List.mem_cons_self i rest)
      have hnode : nodes.getD i "" = idxVal nodes (i : ℤ) := by
        rw [idxVal, Int.toNat_ofNat]
      have hival : (i : ℤ) ∈ validSet nodes := mem_validSet.mpr ⟨i, hi, rfl⟩
      match hv : visitF nodes edges (nodes.length + 2) (nodes.getD i "")
          (i : ℤ) [] st with
      | none =>
        rw [hv] at hrun
        simp at hrun
      | some (.error er) =>
        rw [hv] at hrun
        simp at hrun
      | some (.ok st1) =>
        rw [hv] at hrun
        have hrun' : topLoop nodes edges rest st1 = some (.ok st') := by
          simpa using hrun
        obtain ⟨hinv1, hsub1, _, _, hmark1⟩ :=
          (visit_sound nodes edges HT (nodes.length + 2)).1 _ _ [] st st1
            hnode hival hinv hv
        obtain ⟨hinv', hsub', hmem'⟩ := ih st1 st'
          (fun j hj => his j (List.mem_cons_of_mem i hj)) hinv1 hrun'
        refine ⟨hinv', le_trans hsub1 hsub', ?_⟩
        intro j hj
        rcases List.mem_cons.mp hj with rfl | hj'
        · exact hsub' hmark1
        · exact hmem' j hj'

lemma topLoop_adequate (nodes : List String) (edges : List (String × String))
    (HT : ∀ e ∈ edges, e.2 ∈ nodes) :
    ∀ (is : List ℕ) (st : TState), (∀ i ∈ is, i < nodes.length) →
      TInv nodes edges [] st → topLoop nodes edges is st ≠ none := by
  intro is
  induction is with
  | nil =>
    intro st _ _
    rw [topLoop]
    simp
  | cons i rest ih =>
    intro st his hinv
    rw [topLoop]
    by_cases hm : (i : ℤ) ∈ st.marked
    · rw [if_pos hm]
      exact ih st (fun j hj => his j (List.mem_cons_of_mem i hj)) hinv
    · rw [if_neg hm]
      have hi : i < nodes.length := his i (List.mem_cons_self i rest)
      have hnode : nodes.getD i "" = idxVal nodes (i : ℤ) := by
        rw [idxVal, Int.toNat_ofNat]
      have hival : (i : ℤ) ∈ validSet nodes := mem_validSet.mpr ⟨i, hi, rfl⟩
      have hF := (visit_adequate nodes edges HT (nodes.length + 2)).1 _ _ [] st
        hnode hival hinv (by have := marked_card_le hinv.1; omega)
      match hv : visitF nodes edges (nodes.length + 2) (nodes.getD i "")
          (i : ℤ) [] st with
      | none => exact absurd hv hF
      | some (.error er) => simp
      | some (.ok st1) =>
        obtain ⟨hinv1, _, _, _, _⟩ :=
          (visit_sound nodes edges HT (nodes.length + 2)).1 _ _ [] st st1
            hnode hival hinv hv
        exact ih st1 (fun j hj => his j (List.mem_cons_of_mem i hj)) hinv1

lemma topLoop_error (nodes : List String) (edges : List (String × String)) :
    ∀ (is : List ℕ) (st : TState) (msg : String),
      topLoop nodes edges is st = some (.error msg) → hasCycle edges := by
  intro is
  induction is with
  | nil =>
    intro st msg hrun
    rw [topLoop] at hrun
    simp at hrun
  | cons i rest ih =>
    intro st msg hrun
    rw [topLoop] at hrun
    by_cases hm : (i : ℤ) ∈ st.marked
    · rw [if_pos hm] at hrun
      exact ih st msg hrun
    · rw [if_neg hm] at hrun
      match hv : visitF nodes edges (nodes.length + 2) (nodes.getD i "")
          (i : ℤ) [] st with
      | none =>
        rw [hv] at hrun
        simp at hrun
      | some (.error er) =>
        exact (visit_error nodes edges (nodes.length + 2)).1 _ _ [] st er
          List.chain'_nil (Or.inl rfl) hv
      | some (.ok st1) =>
        rw [hv] at hrun
        have hrun' : topLoop nodes edges rest st1 = some (.error msg) := by
          simpa using hrun
        exact ih st1 msg hrun'

lemma list_map_getD_range (l : List String) :
    (List.range l.length).map (fun k => l.getD k "") = l := by
  apply List.ext_get
  · simp
  · intro n h1 h2
    have hn : n < l.length := by simpa using h1
    rw [List.get_map]
    rw [List.get_range, List.getD_eq_get l "" hn]

/-- A successful `toposort` returns the reverse of a completion order
that is a permutation of the nodes and respects the edges. -/
lemma toposort_ok_spec (nodes : List String) (edges : List (String × String))
    (HT : ∀ e ∈ edges, e.2 ∈ nodes) (l : List String)
    (h : toposort nodes edges = .ok l) :
    ∃ comp : List String, l = comp.reverse ∧ comp.Perm nodes ∧
      compOrdered edges comp := by
  rw [toposort] at h
  match hv : topLoop nodes edges (List.range nodes.length).reverse ⟨∅, []⟩ with
  | none =>
    rw [hv] at h
    simp at h
  | some (.error e) =>
    rw [hv] at h
    simp at h
  | some (.ok st) =>
    rw [hv] at h
    have hl : l = st.comp.reverse :=
      (Except.ok.inj (show Except.ok st.comp.reverse = Except.ok l from h)).symm
    obtain ⟨hinv, _, hall⟩ := topLoop_sound nodes edges HT _ _ st
      (fun i hi => List.mem_range.mp (List.mem_reverse.mp hi))
      (TInv_init nodes edges) hv
    have hsub2 : validSet nodes ⊆ st.marked := by
      intro x hx
      obtain ⟨k, hk, rfl⟩ := mem_validSet.mp hx
      exact hall k (List.mem_reverse.mpr (List.mem_range.mpr hk))
    have heq : st.marked = validSet nodes := Finset.Subset.antisymm hinv.1 hsub2
    have hmv : markedVals nodes st = (nodes : Multiset String) := by
      rw [markedVals, heq, validSet, Finset.map_val, Finset.range_val]
      show (((List.range nodes.length : List ℕ) : Multiset ℕ).map _).map _ = _
      rw [Multiset.map_coe, Multiset.map_coe]
      rw [List.map_map]
      have hmapeq : (List.range nodes.length).map
          (idxVal nodes ∘ ⇑(⟨fun k : ℕ => (k : ℤ), fun a b h => by
            simpa using h⟩ : ℕ ↪ ℤ)) = nodes := by
        have hcong : (List.range nodes.length).map
            (idxVal nodes ∘ ⇑(⟨fun k : ℕ => (k : ℤ), fun a b h => by
              simpa using h⟩ : ℕ ↪ ℤ))
            = (List.range nodes.length).map (fun k => nodes.getD k "") := by
          apply List.map_congr_left
          intro k _
          show idxVal nodes (k : ℤ) = _
          rw [idxVal, Int.toNat_ofNat]
        rw [hcong, list_map_getD_range]
      rw [hmapeq]
    have hperm : st.comp.Perm nodes := by
      have h2 := hinv.2.1
      rw [hmv] at h2
      have h3 : ((nodes : Multiset String)) = (st.comp : Multiset String) := by
        simpa using h2
      exact (Multiset.coe_eq_coe.mp h3).symm
    exact ⟨st.comp, hl, hperm, hinv.2.2⟩

/-- `indexOf` is the least position of a value. -/
lemma indexOf_le_of_get : ∀ (l : List String) (s : ℕ) (hs : s < l.length),
    List.indexOf (l.get ⟨s, hs⟩) l ≤ s := by
  intro l
  induction l with
  | nil => intro s hs; simp at hs
  | cons a t ih =>
    intro s hs
    match s with
    | 0 =>
      show List.indexOf a (a :: t) ≤ 0
      rw [List.indexOf_cons_self]
    | s' + 1 =>
      have hs' : s' < t.length := by simpa using hs
      show List.indexOf (t.get ⟨s', hs'⟩) (a :: t) ≤ s' + 1
      by_cases hv : a = t.get ⟨s', hs'⟩
      · rw [← hv, List.indexOf_cons_self]
        omega
      · rw [List.indexOf_cons_ne t hv]
        have := ih s' hs'
        omega

/-- A completion order that respects the edges and contains every edge
target rules out directed cycles. -/
lemma no_cycle_of_compOrdered (edges : List (String × String))
    (comp : List String) (HT : ∀ e ∈ edges, e.2 ∈ comp)
    (hord : compOrdered edges comp) : ¬ hasCycle edges := by
  have hstep : ∀ u v : String, (u, v) ∈ edges → u ∈ comp →
      v ∈ comp ∧ List.indexOf v comp < List.indexOf u comp := by
    intro u v he hu
    have ht : List.indexOf u comp < comp.length :=
      List.indexOf_lt_length.mpr hu
    obtain ⟨s, hs, hst, hsval⟩ := hord (u, v) he (List.indexOf u comp) ht
      (List.indexOf_get ht)
    have hvmem : v ∈ comp := by
      have hm := List.get_mem comp s hs
      rw [hsval] at hm
      exact hm
    refine ⟨hvmem, ?_⟩
    have hle : List.indexOf v comp ≤ s := by
      have h1 := indexOf_le_of_get comp s hs
      rw [hsval] at h1
      exact h1
    omega
  rintro ⟨a, ha⟩
  have hmain : ∀ u v : String, Relation.TransGen (edgeRel edges) u v →
      v ∈ comp ∧ (u ∈ comp → List.indexOf v comp < List.indexOf u comp) := by
    intro u v h
    induction h with
    | @single b hb =>
      constructor
      · exact HT (u, b) hb
      · intro hu
        exact (hstep u b hb hu).2
    | @tail b c h1 h2 ih =>
      have hb : b ∈ comp := ih.1
      constructor
      · exact HT (b, c) h2
      · intro hu
        have h3 := (hstep b c h2 hb).2
        have h4 := ih.2 hu
        omega
  obtain ⟨hac, hlt⟩ := hmain a a ha
  exact absurd (hlt hac) (lt_irrefl _)

/-- A successful `toposort` implies the edges are acyclic. -/
lemma acyclic_of_toposort_ok (nodes : List String)
    (edges : List (String × String)) (HT : ∀ e ∈ edges, e.2 ∈ nodes)
    (l : List String) (h : toposort nodes edges = .ok l) :
    ¬ hasCycle edges := by
  obtain ⟨comp, _, hperm, hord⟩ := toposort_ok_spec nodes edges HT l h
  exact no_cycle_of_compOrdered edges comp
    (fun e he => (hperm.mem_iff).mpr (HT e he)) hord

/-- On a duplicate-free completion order, the edge ordering yields
"source appears before target" in the reversed (output) order. -/
lemma appearsBefore_of_compOrdered (edges : List (String × String))
    (comp : List String) (hnd : comp.Nodup)
    (hord : compOrdered edges comp) (e : String × String) (he : e ∈ edges)
    (ha : e.1 ∈ comp) : appearsBefore comp.reverse e.1 e.2 := by
  intro j hj hgetb
  have hlen : comp.reverse.length = comp.length := List.length_reverse comp
  have hjlen : j < comp.length := by omega
  have hsb : comp.length - 1 - j < comp.length := by omega
  have hgetb' : comp.get ⟨comp.length - 1 - j, hsb⟩ = e.2 := by
    rw [← hgetb, List.getD_eq_get comp.reverse "" (by omega)]
    exact (List.get_reverse' comp ⟨j, by omega⟩ hsb).symm
  obtain ⟨ta, hta⟩ := List.mem_iff_get.mp ha
  obtain ⟨s, hs, hst, hsv⟩ := hord e he ta.1 ta.2 hta
  have hseq : s = comp.length - 1 - j := by
    have := hnd.get_inj_iff.mp (hsv.trans hgetb'.symm)
    exact Fin.mk.inj_iff.mp this
  have hta2 := ta.2
  refine ⟨comp.length - 1 - ta.1, by omega, ?_⟩
  rw [List.getD_eq_get comp.reverse "" (by omega)]
  have hrev := List.get_reverse' comp ⟨comp.length - 1 - ta.1, by omega⟩
    (by simp only [List.length_reverse]; omega)
  rw [hrev]
  convert hta using 2
  apply Fin.ext
  simp only [Fin.val_mk]
  omega

/-- A single edge between two distinct values cannot form a cycle. -/
lemma single_edge_acyclic (a b : String) (hab : a ≠ b) :
    ¬ hasCycle [(a, b)] := by
  rintro ⟨x, hx⟩
  have hsrc : ∀ u v : String, Relation.TransGen (edgeRel [(a, b)]) u v → u = a := by
    intro u v h
    induction h with
    | @single c hc =>
      have : (u, c) = (a, b) := List.mem_singleton.mp hc
      exact congrArg Prod.fst this
    | @tail c d h1 h2 ih => exact ih
  have htgt : ∀ u v : String, Relation.TransGen (edgeRel [(a, b)]) u v → v = b := by
    intro u v h
    induction h with
    | @single c hc =>
      have : (u, c) = (a, b) := List.mem_singleton.mp hc
      exact congrArg Prod.snd this
    | @tail c d h1 h2 ih =>
      have : (c, d) = (a, b) := List.mem_singleton.mp h2
      exact congrArg Prod.snd this
  exact hab ((hsrc x x hx).symm.trans (htgt x x hx))

/-- C10 (amended, restricted to duplicate-free node lists): for every
duplicate-free node list and edge list whose endpoints occur among the
nodes, if the edges are acyclic then `toposort` succeeds with a
permutation of the nodes in which, for every edge `(a, b)`, `a` appears
before `b`; and if the edges contain a cycle, `toposort` throws.  (For
node lists with duplicates the ordering claim fails: see the
counterexample.) -/
theorem toposort_correct (nodes : List String) (edges : List (String × String))
    (hnd : nodes.Nodup) (hend : ∀ e ∈ edges, e.1 ∈ nodes ∧ e.2 ∈ nodes) :
    (¬ hasCycle edges → ∃ l, toposort nodes edges = .ok l ∧ l.Perm nodes ∧
      ∀ e ∈ edges, appearsBefore l e.1 e.2) ∧
    (hasCycle edges → ∃ msg, toposort nodes edges = .error msg) := by
  have HT : ∀ e ∈ edges, e.2 ∈ nodes := fun e he => (hend e he).2
  constructor
  · intro hnc
    match hv : topLoop nodes edges (List.range nodes.length).reverse ⟨∅, []⟩ with
    | none =>
      exact absurd hv (topLoop_adequate nodes edges HT _ _
        (fun i hi => List.mem_range.mp (List.mem_reverse.mp hi))
        (TInv_init nodes edges))
    | some (.error er) =>
      exact absurd (topLoop_error nodes edges _ _ er hv) hnc
    | some (.ok st) =>
      have hok : toposort nodes edges = .ok st.comp.reverse := by
        rw [toposort, hv]
      obtain ⟨comp, hlc, hperm, hord⟩ := toposort_ok_spec nodes edges HT _ hok
      refine ⟨st.comp.reverse, hok, ?_, ?_⟩
      · rw [hlc]
        exact comp.reverse_perm.trans hperm
      · intro e he
        rw [hlc]
        exact appearsBefore_of_compOrdered edges comp
          ((hperm.nodup_iff).mpr hnd) hord e he
          (hperm.mem_iff.mpr (hend e he).1)
  · intro hc
    match hv : topLoop nodes edges (List.range nodes.length).reverse ⟨∅, []⟩ with
    | none =>
      exact ⟨"fuel", by rw [toposort, hv]⟩
    | some (.error er) =>
      exact ⟨er, by rw [toposort, hv]⟩
    | some (.ok st) =>
      have hok : toposort nodes edges = .ok st.comp.reverse := by
        rw [toposort, hv]
      exact absurd hc (acyclic_of_toposort_ok nodes edges HT _ hok)

/-- C10 (counterexample to the claim as stated, i.e. for arbitrary node
lists): with the duplicated node list `["b", "b", "a"]` and the single
acyclic edge `("a", "b")` (endpoints among the nodes), `toposort`
returns `["b", "a", "b"]` — a permutation, but the source `"a"` does
*not* appear before the first occurrence of the target `"b"`. -/
theorem toposort_correct_cex :
    toposort ["b", "b", "a"] [("a", "b")] = .ok ["b", "a", "b"] ∧
    (∀ e ∈ [("a", "b")], e.1 ∈ ["b", "b", "a"] ∧ e.2 ∈ ["b", "b", "a"]) ∧
    ¬ hasCycle [("a", "b")] ∧
    ¬ appearsBefore ["b", "a", "b"] "a" "b" := by
  refine ⟨?_, by decide, single_edge_acyclic "a" "b" (by decide), by decide⟩
  simp +decide [toposort, topLoop, visitF, visitListF, jsIndexOf]

/-- Witness for C10 (amended) at a concrete duplicate-free instance. -/
theorem toposort_correct_witness :
    ∃ l, toposort ["b", "a"] [("a", "b")] = .ok l ∧ l.Perm ["b", "a"] ∧
      ∀ e ∈ [("a", "b")], appearsBefore l e.1 e.2 :=
  (toposort_correct ["b", "a"] [("a", "b")] (by decide) (by decide)).1
    (single_edge_acyclic "a" "b" (by decide))

/-! ### The cyclic-series fallback of `initData` (claim C5) -/

lemma dim2Order_fold_mono :
    ∀ (rows : List Row2d) (acc : List String) (x : String), x ∈ acc →
      x ∈ rows.foldl
        (fun acc r => if r.d2.qText ∈ acc then acc else acc ++ [r.d2.qText]) acc := by
  intro rows
  induction rows with
  | nil => intro acc x hx; exact hx
  | cons r rest ih =>
    intro acc x hx
    rw [List.foldl_cons]
    apply ih
    by_cases hmem : r.d2.qText ∈ acc
    · rw [if_pos hmem]
      exact hx
    · rw [if_neg hmem]
      exact List.mem_append_left _ hx

lemma dim2Order_mem :
    ∀ (rows : List Row2d) (acc : List String) (r : Row2d), r ∈ rows →
      r.d2.qText ∈ rows.foldl
        (fun acc r => if r.d2.qText ∈ acc then acc else acc ++ [r.d2.qText]) acc := by
  intro rows
  induction rows with
  | nil => intro acc r hr; exact absurd hr (List.not_mem_nil r)
  | cons r0 rest ih =>
    intro acc r hr
    rw [List.foldl_cons]
    rcases List.mem_cons.mp hr with rfl | hr'
    · apply dim2Order_fold_mono
      by_cases hmem : r.d2.qText ∈ acc
      · rw [if_pos hmem]
        exact hmem
      · rw [if_neg hmem]
        exact List.mem_append_right _ (List.mem_singleton_self _)
    · exact ih _ r hr'

lemma obsEdges_fold_targets (P : String → Prop) :
    ∀ (rows : List Row2d) (st : EdgeState), (∀ e ∈ st.edges, P e.2) →
      (∀ r ∈ rows, P r.d2.qText) →
      ∀ e ∈ (rows.foldl obsEdgesStep st).edges, P e.2 := by
  intro rows
  induction rows with
  | nil => intro st hst _ e he; exact hst e he
  | cons r rest ih =>
    intro st hst hr e he
    rw [List.foldl_cons] at he
    refine ih (obsEdgesStep st r) ?_
      (fun r' hr' => hr r' (List.mem_cons_of_mem r hr')) e he
    intro e' he'
    rw [obsEdgesStep] at he'
    by_cases hd : r.d1.qText ≠ st.p1
    · rw [if_pos hd] at he'
      exact hst e' he'
    · rw [if_neg hd] at he'
      simp only [] at he'
      by_cases hmem : (st.p2, r.d2.qText) ∈ st.edges
      · rw [if_pos hmem] at he'
        exact hst e' he'
      · rw [if_neg hmem] at he'
        rcases List.mem_append.mp he' with h | h
        · exact hst e' h
        · have : e' = (st.p2, r.d2.qText) := List.mem_singleton.mp h
          rw [this]
          exact hr r (List.mem_cons_self r rest)

/-- Every observed edge's target is one of the second-dimension values,
hence a member of the first-encounter order `q`. -/
lemma realEdges_targets (rows : List Row2d) :
    ∀ e ∈ realEdges rows, e.2 ∈ dim2Order rows := by
  intro e he
  obtain ⟨e0, he0, hmap⟩ := List.mem_filterMap.mp he
  have he2 : e0.2 = e.2 := by
    cases hsrc : e0.1 with
    | none =>
      rw [hsrc] at hmap
      simp at hmap
    | some a =>
      rw [hsrc] at hmap
      simp only [Option.map_some'] at hmap
      exact congrArg Prod.snd (Option.some.inj hmap)
  have htgt := obsEdges_fold_targets (fun s => s ∈ dim2Order rows) rows
    ⟨"", none, []⟩ (fun e' he' => absurd he' (List.not_mem_nil e'))
    (fun r hr => dim2Order_mem rows [] r hr) e0 he0
  rw [← he2]
  exact htgt

/-- C5: for every 2-dimensional input whose observed series-order edges
contain a directed cycle, `initData` does not throw (the model below is
a total function; the `Cyclic dependency` error of `toposort` is caught
at lines 269-271) and the canonical series order `allDim2` equals the
first-encounter order of the second-dimension values. -/
theorem series_fallback_on_cycle (dd : ℕ) (sd nz : Bool) (rows : List Row2d)
    (hc : hasCycle (realEdges rows)) :
    (initData2 dd sd nz rows).allDim2 = dim2Order rows := by
  show seriesOrder rows = dim2Order rows
  rw [seriesOrder]
  match h : toposort (dim2Order rows) (realEdges rows) with
  | .error e => rfl
  | .ok qs =>
    exact absurd hc
      (acyclic_of_toposort_ok _ _ (realEdges_targets rows) qs h)

/-- Witness for C5 at a concrete input whose observed edges are the
cycle `A → B → A`. -/
theorem series_fallback_on_cycle_witness :
    (initData2 2 false false
      [sampleRow "G1" "A" 1, sampleRow "G1" "B" 1,
       sampleRow "G2" "B" 1, sampleRow "G2" "A" 1]).allDim2
    = dim2Order [sampleRow "G1" "A" 1, sampleRow "G1" "B" 1,
       sampleRow "G2" "B" 1, sampleRow "G2" "A" 1] := by
  apply series_fallback_on_cycle
  have h1 : edgeRel (realEdges [sampleRow "G1" "A" 1, sampleRow "G1" "B" 1,
      sampleRow "G2" "B" 1, sampleRow "G2" "A" 1]) "A" "B" := by
    show ("A", "B") ∈ realEdges _
    decide
  have h2 : edgeRel (realEdges [sampleRow "G1" "A" 1, sampleRow "G1" "B" 1,
      sampleRow "G2" "B" 1, sampleRow "G2" "A" 1]) "B" "A" := by
    show ("B", "A") ∈ realEdges _
    decide
  exact ⟨"A", Relation.TransGen.head h1 (Relation.TransGen.single h2)⟩

end LdwBars
